import Mathlib

/-!
# Image model suffix parsing and image-config injection (package `util`)

A shallow embedding of `internal/util/image_suffix.go` and
`internal/util/image_metadata.go`.

Modelling conventions.

* A Go `string` is modelled as the list of its code points (`Str`), i.e. the
  model ranges over valid UTF-8 strings.  On such strings the byte-wise
  library calls used by the source (`strings.Contains`, `strings.Split`,
  `strings.ReplaceAll`, `==`) agree with their code-point-wise counterparts
  below, because UTF-8 is self-synchronising.
* A Go `map[string]any` is modelled as `Option` of an association list: `none`
  is the `nil` map, `some []` the empty map.  Reading takes the first binding
  of a key; writing replaces the binding of a key or appends a new one.
* A value of type `any` is either a string or some other dynamic value.
* `[]byte` is a list of bytes; `sjson.SetBytes` is an external library and is
  taken as a parameter returning the new document and an error flag.
* `image_metadata.go` never inspects the document: it only hands it to
  `sjson.SetBytes` and returns it.  The document type of `applyImageConfig` is
  therefore a parameter: `Bytes` for the raw `[]byte` of the source, or a JSON
  value where the setter is modelled on JSON documents.
-/

namespace Util

/-- A Go string, as the list of its code points. -/
abbrev Str := List Char

/-- A Go byte slice. -/
abbrev Bytes := List UInt8

/-- A value of Go type `any`: a string, or anything else (tagged opaquely). -/
inductive Value where
  | str (s : Str)
  | other (tag : Nat)
deriving DecidableEq, Repr

/-- A Go `map[string]any`; `none` is the nil map. -/
abbrev Metadata := Option (List (Str × Value))

/-! ## Constants of `image_suffix.go` -/

def ImageAspectRatioMetadataKey : Str := "image_aspect_ratio".toList
def ImageSizeMetadataKey : Str := "image_size".toList
def ImageOriginalModelMetadataKey : Str := "image_original_model".toList

/-- The table `aspectRatioMap` (source lines 17-34), in source order. -/
def aspectRatioMap : List (Str × Str) :=
  [ ("1-1".toList, "1:1".toList),
    ("1x1".toList, "1:1".toList),
    ("16-9".toList, "16:9".toList),
    ("16x9".toList, "16:9".toList),
    ("9-16".toList, "9:16".toList),
    ("9x16".toList, "9:16".toList),
    ("21-9".toList, "21:9".toList),
    ("21x9".toList, "21:9".toList),
    ("4-3".toList, "4:3".toList),
    ("4x3".toList, "4:3".toList),
    ("3-4".toList, "3:4".toList),
    ("3x4".toList, "3:4".toList),
    ("3-2".toList, "3:2".toList),
    ("3x2".toList, "3:2".toList),
    ("2-3".toList, "2:3".toList),
    ("2x3".toList, "2:3".toList) ]

/-- The table `imageSizeMap` (source lines 37-41). -/
def imageSizeMap : List (Str × Str) :=
  [ ("1k".toList, "1K".toList),
    ("2k".toList, "2K".toList),
    ("4k".toList, "4K".toList) ]

/-! ## Go maps -/

/-- Map read `m[key]` with the comma-ok result as an `Option`. -/
def mapGet {α : Type} : List (Str × α) → Str → Option α
  | [], _ => none
  | (k, v) :: m, key => if key = k then some v else mapGet m key

/-- Map write `m[key] = v`. -/
def mapSet {α : Type} : List (Str × α) → Str → α → List (Str × α)
  | [], key, v => [(key, v)]
  | (k, w) :: m, key, v => if key = k then (k, v) :: m else (k, w) :: mapSet m key v

/-- The builtin `len(m)` of a map; the nil map has length 0. -/
def mapLen (m : Metadata) : Nat :=
  match m with
  | none => 0
  | some kvs => kvs.length

/-- The entries of a map; the nil map reads as empty. -/
def mapEntries (m : Metadata) : List (Str × Value) :=
  match m with
  | none => []
  | some kvs => kvs

/-- The type assertion `v.(string)` applied to the result of a map read. -/
def asString : Option Value → Option Str
  | some (Value.str s) => some s
  | _ => none

/-! ## Go standard library functions used by the source -/

/-- The call `strings.Contains(s, sub)`. -/
def stringsContains : Str → Str → Bool
  | [], sub => sub.isEmpty
  | c :: s, sub => sub.isPrefixOf (c :: s) || stringsContains s sub

/-- The call `strings.Split(s, sep)` for a one-character separator: the pieces
between the separators, `[""]` for the empty string. -/
def stringsSplit (sep : Char) : Str → List Str
  | [] => [[]]
  | c :: s =>
    if c = sep then [] :: stringsSplit sep s
    else
      match stringsSplit sep s with
      | [] => [[c]]
      | p :: ps => (c :: p) :: ps

/-- The function `unicode.ToLower` on one rune, as far as the lookups of this
package can observe it.  Every key of both tables is ASCII; the runes whose
lower case is ASCII are `A`-`Z`, U+212A KELVIN SIGN (to `k`) and U+0130 (to
`i`).  Any other rune has a non-ASCII lower case, which equals no key
character and is not `x`; such a rune is left as it is. -/
def toLowerRune (c : Char) : Char :=
  if 65 ≤ c.toNat ∧ c.toNat ≤ 90 then Char.ofNat (c.toNat + 32)
  else if c.toNat = 0x212A then 'k'
  else if c.toNat = 0x130 then 'i'
  else c

/-- The call `strings.ToLower(s)`. -/
def stringsToLower (s : Str) : Str := s.map toLowerRune

/-- The call `strings.ReplaceAll(s, old, new)` for one-character `old`, `new`. -/
def stringsReplaceAll (old new : Char) (s : Str) : Str :=
  s.map (fun c => if c = old then new else c)

/-- The predicate `unicode.IsSpace`: the Latin-1 cases of the Go source and
the `White_Space` property above Latin-1. -/
def unicodeIsSpace (c : Char) : Bool :=
  let n := c.toNat
  n = 0x09 || n = 0x0A || n = 0x0B || n = 0x0C || n = 0x0D || n = 0x20 ||
  n = 0x85 || n = 0xA0 || n = 0x1680 || (0x2000 ≤ n && n ≤ 0x200A) ||
  n = 0x2028 || n = 0x2029 || n = 0x202F || n = 0x205F || n = 0x3000

/-- The call `strings.TrimSpace(s)`: leading and trailing white space removed. -/
def stringsTrimSpace (s : Str) : Str :=
  ((s.dropWhile unicodeIsSpace).reverse.dropWhile unicodeIsSpace).reverse

/-! ## `parseImageSuffix` -/

def bareBase : Str := "gemini-3-pro-image".toList
def previewBase : Str := "gemini-3-pro-image-preview".toList

/-- What `.+$` accepts in Go's `regexp` (no flags): a non-empty rest of the
text with no `\n` in it. -/
def dotPlusToEnd (s : Str) : Bool :=
  !s.isEmpty && !s.contains '\n'

/-- Removes `p` from the front of `s`, if `s` starts with it. -/
def dropFront (p s : Str) : Option Str :=
  if p.isPrefixOf s then some (s.drop p.length) else none

/-- One alternative of the pattern `^(gemini-3-pro-image(?:-preview)?)-(.+)$`
(source line 102) with the first group fixed to `base`: `base`, a dash, and a
rest accepted by `.+$`. -/
def matchWithBase (base modelName : Str) : Option (Str × Str) :=
  match dropFront (base ++ ['-']) modelName with
  | some suffix => if dotPlusToEnd suffix then some (base, suffix) else none
  | none => none

/-- The call `pattern.FindStringSubmatch(modelName)` (source lines 102-103):
the two capture groups of the match, if any.  The optional group `(?:-preview)?`
is greedy and the match is leftmost-first, so the alternative with `-preview`
is tried first and the one without it only if the first fails. -/
def findStringSubmatch (modelName : Str) : Option (Str × Str) :=
  match matchWithBase previewBase modelName with
  | some r => some r
  | none => matchWithBase bareBase modelName

/-- The local variables `aspectRatio`, `imageSize` of `parseImageSuffix`. -/
structure Scan where
  aspectRatio : Str
  imageSize : Str
deriving DecidableEq, Repr

/-- The x-convention step of the loop body (source lines 136-141). -/
def xStep (part : Str) (st : Scan) : Scan :=
  if stringsContains part ['x'] then
    match mapGet aspectRatioMap (stringsReplaceAll 'x' '-' part) with
    | some r => { st with aspectRatio := r }
    | none => st
  else st

/-- The loop of `parseImageSuffix` (source lines 116-142), run on the parts
from index `i` on: the argument is `parts[i:]`, so "`i+1 < len(parts)`" is
"there is a second element", `continue` recurses on the tail and `i++;
continue` on the tail of the tail. -/
def scanParts : List Str → Scan → Scan
  | [], st => st
  | [p], st =>
    match mapGet imageSizeMap (stringsToLower p) with
    | some size => { st with imageSize := size }
    | none => xStep (stringsToLower p) st
  | p :: q :: rest, st =>
    match mapGet imageSizeMap (stringsToLower p) with
    | some size => scanParts (q :: rest) { st with imageSize := size }
    | none =>
      match mapGet aspectRatioMap (stringsToLower p ++ ['-'] ++ q) with
      | some r => scanParts rest { st with aspectRatio := r }
      | none => scanParts (q :: rest) (xStep (stringsToLower p) st)

/-- The three results of `parseImageSuffix`. -/
structure Parsed where
  base : Str
  aspectRatio : Str
  imageSize : Str
deriving DecidableEq, Repr

/-- The function `parseImageSuffix` (source lines 100-153). -/
def parseImageSuffix (modelName : Str) : Parsed :=
  match findStringSubmatch modelName with
  | none => ⟨modelName, [], []⟩
  | some (base, suffix) =>
    let st := scanParts (stringsSplit '-' suffix) ⟨[], []⟩
    if st.aspectRatio = [] ∧ st.imageSize = [] then ⟨modelName, [], []⟩
    else ⟨base, st.aspectRatio, st.imageSize⟩

/-! ## `NormalizeImageModel` -/

/-- The metadata map built at source lines 84-93. -/
def buildMetadata (modelName aspectRatio imageSize : Str) : List (Str × Value) :=
  let metadata := [(ImageOriginalModelMetadataKey, Value.str modelName)]
  let metadata :=
    if aspectRatio ≠ [] then mapSet metadata ImageAspectRatioMetadataKey (Value.str aspectRatio)
    else metadata
  if imageSize ≠ [] then mapSet metadata ImageSizeMetadataKey (Value.str imageSize)
  else metadata

/-- The function `NormalizeImageModel` (source lines 60-96): the base model
name and the metadata map. -/
def NormalizeImageModel (modelName : Str) : Str × Metadata :=
  if modelName = [] then (modelName, none)
  else if !stringsContains modelName bareBase then (modelName, none)
  else if modelName = bareBase ∨ modelName = previewBase then (modelName, none)
  else
    let p := parseImageSuffix modelName
    if p.aspectRatio = [] ∧ p.imageSize = [] then (modelName, none)
    else (p.base, some (buildMetadata modelName p.aspectRatio p.imageSize))

/-! ## `ImageConfigFromMetadata` -/

/-- One of the two reads of `ImageConfigFromMetadata` (source lines 162-165
and 167-170): the trimmed string under `key` if it is a non-blank string. -/
def readField (m : List (Str × Value)) (key : Str) : Option Str :=
  match asString (mapGet m key) with
  | some v => if stringsTrimSpace v ≠ [] then some (stringsTrimSpace v) else none
  | none => none

/-- The function `ImageConfigFromMetadata` (source lines 157-173): the results
`aspectRatio`, `imageSize`, `found`. -/
def ImageConfigFromMetadata (metadata : Metadata) : Str × Str × Bool :=
  if mapLen metadata = 0 then ([], [], false)
  else
    let aspectRatio : Str := []
    let imageSize : Str := []
    let found := false
    let (aspectRatio, found) :=
      match readField (mapEntries metadata) ImageAspectRatioMetadataKey with
      | some ar => (ar, true)
      | none => (aspectRatio, found)
    let (imageSize, found) :=
      match readField (mapEntries metadata) ImageSizeMetadataKey with
      | some size => (size, true)
      | none => (imageSize, found)
    (aspectRatio, imageSize, found)

/-! ## `image_metadata.go` -/

/-- The signature of `sjson.SetBytes` at a string value: document, path and
value to the returned document and whether the returned error is non-nil.
The library itself is not part of this repository; where a statement depends
on what it returns, that is a hypothesis on the parameter. -/
abbrev SetBytes := Bytes → Str → Str → Bytes × Bool

/-- The function `applyImageConfig` (source lines 53-79).  The error of each
`sjson.SetBytes` call is discarded and its first result is assigned to
`result`.  The document type `D` is `[]byte` in the source. -/
def applyImageConfig {D : Type} (setBytes : D → Str → Str → D × Bool) (metadata : Metadata)
    (rawJSON : D) (basePath : Str) : D :=
  if metadata = none ∨ mapLen metadata = 0 then rawJSON
  else
    let cfg := ImageConfigFromMetadata metadata
    if !cfg.2.2 then rawJSON
    else
      let result := rawJSON
      let result :=
        if cfg.1 ≠ [] then (setBytes result (basePath ++ ".aspectRatio".toList) cfg.1).1
        else result
      let result :=
        if cfg.2.1 ≠ [] then (setBytes result (basePath ++ ".imageSize".toList) cfg.2.1).1
        else result
      result

/-- The function `ApplyImageConfigFromMetadataCLI` (source lines 21-23). -/
def ApplyImageConfigFromMetadataCLI {D : Type} (setBytes : D → Str → Str → D × Bool)
    (_model : Str) (metadata : Metadata) (rawJSON : D) : D :=
  applyImageConfig setBytes metadata rawJSON "request.generationConfig.imageConfig".toList

/-- The function `ApplyImageConfigFromMetadata` (source lines 39-41). -/
def ApplyImageConfigFromMetadata {D : Type} (setBytes : D → Str → Str → D × Bool)
    (_model : Str) (metadata : Metadata) (rawJSON : D) : D :=
  applyImageConfig setBytes metadata rawJSON "generationConfig.imageConfig".toList

/-! ## A JSON document and a dotted-path setter -/

/-- A JSON value, as far as object structure goes: a string, an object, or
any other value (number, boolean, null, array) kept as its text. -/
inductive Json where
  | str (s : Str)
  | raw (text : Str)
  | obj (fields : List (Str × Json))

/-- The fields of a JSON value; a value that is not an object has none. -/
def Json.fields : Json → List (Str × Json)
  | Json.obj fs => fs
  | _ => []

/-- Modelled from the spec: the external "set value at dotted path" primitive
(`sjson.SetBytes`, not part of this repository), on a JSON value and a path
already split into segments.  Each segment names a field; a missing field is
created, a value on the way that is not an object is replaced by an object,
the value at the end of the path becomes the string, and every other field
stays where it is. -/
def setPath : List Str → Json → Str → Json
  | [], _, v => Json.str v
  | k :: ks, j, v =>
    Json.obj (mapSet j.fields k (setPath ks ((mapGet j.fields k).getD (Json.obj [])) v))

/-- Modelled from the spec: reading the value at a path split into segments. -/
def getPath : List Str → Json → Option Json
  | [], j => some j
  | k :: ks, j =>
    match mapGet j.fields k with
    | some c => getPath ks c
    | none => none

/-- Modelled from the spec: the set-at-path primitive on JSON documents with
the signature of `sjson.SetBytes`; the path is dotted, with no escaping of
literal dots, and the write always succeeds. -/
def jsonSetBytes (doc : Json) (path : Str) (value : Str) : Json × Bool :=
  (setPath (stringsSplit '.' path) doc value, false)

/-! ## Enumerations named by the specification -/

/-- The eight ratios: dash form, x form, canonical value. -/
def ratioForms : List (Str × Str × Str) :=
  [ ("1-1".toList, "1x1".toList, "1:1".toList),
    ("16-9".toList, "16x9".toList, "16:9".toList),
    ("9-16".toList, "9x16".toList, "9:16".toList),
    ("21-9".toList, "21x9".toList, "21:9".toList),
    ("4-3".toList, "4x3".toList, "4:3".toList),
    ("3-4".toList, "3x4".toList, "3:4".toList),
    ("3-2".toList, "3x2".toList, "3:2".toList),
    ("2-3".toList, "2x3".toList, "2:3".toList) ]

/-- The three size tokens with their canonical values. -/
def sizeForms : List (Str × Str) :=
  [ ("1k".toList, "1K".toList), ("2k".toList, "2K".toList), ("4k".toList, "4K".toList) ]

/-- The eight ratios in the dash convention. -/
def dashRatios : List Str := ratioForms.map (fun r => r.1)

/-- The canonical ratio values. -/
def ratioValues : List Str := ratioForms.map (fun r => r.2.2)

/-- The canonical size values. -/
def sizeValues : List Str := sizeForms.map (fun z => z.2)

/-- Pairs of neighbouring fragments, left to right. -/
def adjacentPairs : List Str → List (Str × Str)
  | p :: q :: rest => (p, q) :: adjacentPairs (q :: rest)
  | _ => []

/-- A character that is not a lower-case ASCII letter. -/
def stableChar (d : Char) : Bool := !(decide (97 ≤ d.toNat) && decide (d.toNat ≤ 122))

/-- The part of a key in front of its first dash. -/
def beforeDash (k : Str) : Str := k.takeWhile (fun c => c != '-')

/-- The part of a key behind its first dash. -/
def afterDash (k : Str) : Str := (k.dropWhile (fun c => c != '-')).drop 1

/-- A metadata value as `NormalizeImageModel` stores it: absent for "". -/
def optField (v : Str) : Option Value :=
  if v = [] then none else some (Value.str v)

/-- The string stored under a key of a metadata map, "" for an absent key. -/
def storedString (m : Metadata) (key : Str) : Str :=
  match mapGet (mapEntries m) key with
  | some (Value.str v) => v
  | _ => []

/-- "No token is recognizable in the fragments", with the x condition read on
the fragment as it stands: no fragment lowercases to 1k/2k/4k, no two adjacent
fragments joined by "-" form a dash ratio, no fragment with every "x" replaced
by "-" is a dash ratio. -/
def noTokenAsWritten (frags : List Str) : Prop :=
  (∀ f ∈ frags, stringsToLower f ∉ sizeForms.map (fun z => z.1)) ∧
  (∀ pq ∈ adjacentPairs frags, pq.1 ++ '-' :: pq.2 ∉ dashRatios) ∧
  (∀ f ∈ frags, stringsReplaceAll 'x' '-' f ∉ dashRatios)

/-- "No token is recognizable in the fragments", with the x condition read on
the lowercased fragment. -/
def noToken (frags : List Str) : Prop :=
  (∀ f ∈ frags, stringsToLower f ∉ sizeForms.map (fun z => z.1)) ∧
  (∀ pq ∈ adjacentPairs frags, pq.1 ++ '-' :: pq.2 ∉ dashRatios) ∧
  (∀ f ∈ frags, stringsReplaceAll 'x' '-' (stringsToLower f) ∉ dashRatios)

/-- The scan of a suffix from the empty state, as `parseImageSuffix` runs it. -/
def scanSuffix (suffix : Str) : Scan :=
  scanParts (stringsSplit '-' suffix) ⟨[], []⟩

/-- The string the specification of `ImageConfigFromMetadata` gives for a
key: the whitespace-trimmed value under the key when that value is a string
that is non-blank after trimming, and "" otherwise. -/
def trimmedField (m : Metadata) (key : Str) : Str :=
  match mapGet (mapEntries m) key with
  | some (Value.str v) => if stringsTrimSpace v ≠ [] then stringsTrimSpace v else []
  | _ => []

/-- The identifier `s` starts with `p` followed by at least one character. -/
def startsWithMore (p s : Str) : Bool :=
  p.isPrefixOf s && decide (p.length < s.length)

/-- The document with the non-empty ones of the two values written under the
base path, the ratio first. -/
def writeFields {D : Type} (setBytes : D → Str → Str → D × Bool) (doc : D)
    (basePath a z : Str) : D :=
  let d1 := if a ≠ [] then (setBytes doc (basePath ++ ".aspectRatio".toList) a).1 else doc
  if z ≠ [] then (setBytes d1 (basePath ++ ".imageSize".toList) z).1 else d1

theorem previewBase_eq : previewBase = bareBase ++ "-preview".toList := by decide

theorem stringsContains_self_append (p t : Str) : stringsContains (p ++ t) p = true := by
  cases p with
  | nil => cases t <;> simp [stringsContains]
  | cons a p =>
    simp only [List.cons_append, stringsContains, Bool.or_eq_true]
    left
    rw [List.isPrefixOf_iff_prefix]
    exact ⟨t, rfl⟩

theorem dropFront_append (p s : Str) : dropFront p (p ++ s) = some s := by
  have h : p.isPrefixOf (p ++ s) = true := by
    rw [List.isPrefixOf_iff_prefix]; exact ⟨s, rfl⟩
  simp [dropFront, h]

theorem dropFront_eq_some {p s t : Str} (h : dropFront p s = some t) : s = p ++ t := by
  unfold dropFront at h
  split at h
  · rename_i hp
    rw [List.isPrefixOf_iff_prefix] at hp
    obtain ⟨u, rfl⟩ := hp
    simp at h
    rw [h]
  · simp at h

theorem scan_eq_nil_of_fields {st : Scan} (h : st.aspectRatio = [] ∧ st.imageSize = []) :
    st = ⟨[], []⟩ := by
  cases st
  simp_all

theorem findStringSubmatch_bare (suffix : Str) (hnl : '\n' ∉ suffix) (hne : suffix ≠ [])
    (hnp : "preview-".toList.isPrefixOf suffix = false) :
    findStringSubmatch (bareBase ++ '-' :: suffix) = some (bareBase, suffix) := by
  have h1 : dropFront (previewBase ++ ['-']) (bareBase ++ '-' :: suffix) = none := by
    unfold dropFront
    rw [if_neg]
    intro h
    rw [List.isPrefixOf_iff_prefix] at h
    have e : previewBase ++ ['-'] = bareBase ++ '-' :: "preview-".toList := by decide
    rw [e, List.prefix_append_right_inj, List.cons_prefix_cons] at h
    have h' := List.isPrefixOf_iff_prefix.mpr h.2
    rw [hnp] at h'
    exact Bool.false_ne_true h'
  have h2 : dropFront (bareBase ++ ['-']) (bareBase ++ '-' :: suffix) = some suffix := by
    have e : bareBase ++ '-' :: suffix = (bareBase ++ ['-']) ++ suffix := by simp
    rw [e, dropFront_append]
  have h3 : dotPlusToEnd suffix = true := by
    simp [dotPlusToEnd, hne, hnl]
  simp [findStringSubmatch, matchWithBase, h1, h2, h3]

/-! ## C1 -/

/-- C1 (counterexample): on "gemini-3-pro-image-16-9" a ratio token is
recognised (the metadata is not nil), yet the base name returned is
"gemini-3-pro-image", not "gemini-3-pro-image-preview". -/
theorem C1_base_not_forced_to_preview :
    (NormalizeImageModel "gemini-3-pro-image-16-9".toList).2 ≠ none ∧
    (NormalizeImageModel "gemini-3-pro-image-16-9".toList).1 = "gemini-3-pro-image".toList ∧
    (NormalizeImageModel "gemini-3-pro-image-16-9".toList).1
      ≠ "gemini-3-pro-image-preview".toList := by
  decide

/-- C1 (amended): for every identifier "gemini-3-pro-image-<suffix>" on the
non-preview base (the suffix does not start with "preview-") whose suffix has
no line break and yields at least one recognised size or ratio token,
`NormalizeImageModel` returns the base name "gemini-3-pro-image": the base the
input used is kept. -/
theorem C1_bare_base_kept (suffix : Str)
    (hnl : '\n' ∉ suffix)
    (hnp : "preview-".toList.isPrefixOf suffix = false)
    (htok : scanParts (stringsSplit '-' suffix) ⟨[], []⟩ ≠ ⟨[], []⟩) :
    (NormalizeImageModel ("gemini-3-pro-image".toList ++ '-' :: suffix)).1
      = "gemini-3-pro-image".toList := by
  have hne : suffix ≠ [] := by
    rintro rfl
    exact htok (by decide)
  have hfind := findStringSubmatch_bare suffix hnl hne hnp
  have hst : ¬ ((scanParts (stringsSplit '-' suffix) ⟨[], []⟩).aspectRatio = [] ∧
      (scanParts (stringsSplit '-' suffix) ⟨[], []⟩).imageSize = []) :=
    fun h => htok (scan_eq_nil_of_fields h)
  have hparse : parseImageSuffix (bareBase ++ '-' :: suffix)
      = ⟨bareBase, (scanParts (stringsSplit '-' suffix) ⟨[], []⟩).aspectRatio,
          (scanParts (stringsSplit '-' suffix) ⟨[], []⟩).imageSize⟩ := by
    simp only [parseImageSuffix, hfind]
    rw [if_neg hst]
  have hc : stringsContains (bareBase ++ '-' :: suffix) bareBase = true :=
    stringsContains_self_append _ _
  have hb : bareBase ++ '-' :: suffix ≠ bareBase := by
    intro h
    have := congrArg List.length h
    simp at this
  have hp : bareBase ++ '-' :: suffix ≠ previewBase := by
    intro h
    rw [previewBase_eq] at h
    have h' := List.append_cancel_left h
    have hs : suffix = "preview".toList := by
      have e : "-preview".toList = '-' :: "preview".toList := by decide
      rw [e] at h'
      exact (List.cons.inj h').2
    subst hs
    exact htok (by decide)
  show (NormalizeImageModel (bareBase ++ '-' :: suffix)).1 = bareBase
  simp only [NormalizeImageModel, hc, hparse]
  simp [hb, hp, hst]

/-- C1 (witness): the amended statement at the suffix "16-9". -/
theorem C1_bare_base_kept_witness :
    (NormalizeImageModel ("gemini-3-pro-image".toList ++ '-' :: "16-9".toList)).1
      = "gemini-3-pro-image".toList :=
  C1_bare_base_kept "16-9".toList (by decide) (by decide) (by decide)

/-! ## C2 -/

/-- C2: every string that does not contain "gemini-3-pro-image" (the empty
string included) is returned unchanged by `NormalizeImageModel`, with nil
metadata. -/
theorem C2_no_marker_unchanged (s : Str)
    (h : stringsContains s "gemini-3-pro-image".toList = false) :
    NormalizeImageModel s = (s, none) := by
  have h' : stringsContains s bareBase = false := h
  simp [NormalizeImageModel, h']

/-- C2 (witness): "claude-sonnet-4-5" and the empty string. -/
theorem C2_no_marker_unchanged_witness :
    NormalizeImageModel "claude-sonnet-4-5".toList = ("claude-sonnet-4-5".toList, none) ∧
    NormalizeImageModel [] = ([], none) :=
  ⟨C2_no_marker_unchanged _ (by decide), C2_no_marker_unchanged [] (by decide)⟩

/-! ## C3 -/

/-- C3: for each of the eight ratios written as a single suffix in the dash or
the x convention, and for each size suffix 1k, 2k, 4k, on either base form,
the metadata returned by `NormalizeImageModel` is exactly the map holding
image_original_model (the verbatim input) and that one field with its
canonical value; the other field is absent. -/
theorem C3_single_token_metadata :
    ∀ b ∈ ["gemini-3-pro-image-".toList, "gemini-3-pro-image-preview-".toList],
      (∀ r ∈ ratioForms, ∀ t ∈ [r.1, r.2.1],
        (NormalizeImageModel (b ++ t)).2
            = some [(ImageOriginalModelMetadataKey, Value.str (b ++ t)),
                    (ImageAspectRatioMetadataKey, Value.str r.2.2)] ∧
          mapGet (mapEntries (NormalizeImageModel (b ++ t)).2) ImageAspectRatioMetadataKey
            = some (Value.str r.2.2) ∧
          mapGet (mapEntries (NormalizeImageModel (b ++ t)).2) ImageSizeMetadataKey = none ∧
          mapGet (mapEntries (NormalizeImageModel (b ++ t)).2) ImageOriginalModelMetadataKey
            = some (Value.str (b ++ t))) ∧
      (∀ z ∈ sizeForms,
        (NormalizeImageModel (b ++ z.1)).2
            = some [(ImageOriginalModelMetadataKey, Value.str (b ++ z.1)),
                    (ImageSizeMetadataKey, Value.str z.2)] ∧
          mapGet (mapEntries (NormalizeImageModel (b ++ z.1)).2) ImageSizeMetadataKey
            = some (Value.str z.2) ∧
          mapGet (mapEntries (NormalizeImageModel (b ++ z.1)).2) ImageAspectRatioMetadataKey
            = none ∧
          mapGet (mapEntries (NormalizeImageModel (b ++ z.1)).2) ImageOriginalModelMetadataKey
            = some (Value.str (b ++ z.1))) := by
  decide

/-- C3 (witness): the preview base with the suffix "16x9", and the bare base
with the suffix "2k". -/
theorem C3_single_token_metadata_witness :
    (NormalizeImageModel ("gemini-3-pro-image-preview-".toList ++ "16x9".toList)).2
      = some [(ImageOriginalModelMetadataKey,
                Value.str ("gemini-3-pro-image-preview-".toList ++ "16x9".toList)),
              (ImageAspectRatioMetadataKey, Value.str "16:9".toList)] ∧
    (NormalizeImageModel ("gemini-3-pro-image-".toList ++ "2k".toList)).2
      = some [(ImageOriginalModelMetadataKey,
                Value.str ("gemini-3-pro-image-".toList ++ "2k".toList)),
              (ImageSizeMetadataKey, Value.str "2K".toList)] :=
  ⟨((C3_single_token_metadata "gemini-3-pro-image-preview-".toList (by decide)).1
      ("16-9".toList, "16x9".toList, "16:9".toList) (by decide) "16x9".toList (by decide)).1,
   ((C3_single_token_metadata "gemini-3-pro-image-".toList (by decide)).2
      ("2k".toList, "2K".toList) (by decide)).1⟩

/-! ## C4 -/

/-- C4: for every size token and every ratio, in the dash or the x convention,
"gemini-3-pro-image-<size>-<ratio>" and "gemini-3-pro-image-<ratio>-<size>"
both give metadata with image_size the canonical size and image_aspect_ratio
the canonical ratio. -/
theorem C4_two_tokens_either_order :
    ∀ z ∈ sizeForms, ∀ r ∈ ratioForms, ∀ t ∈ [r.1, r.2.1],
      ∀ input ∈ ["gemini-3-pro-image-".toList ++ z.1 ++ '-' :: t,
                 "gemini-3-pro-image-".toList ++ t ++ '-' :: z.1],
        mapGet (mapEntries (NormalizeImageModel input).2) ImageSizeMetadataKey
          = some (Value.str z.2) ∧
        mapGet (mapEntries (NormalizeImageModel input).2) ImageAspectRatioMetadataKey
          = some (Value.str r.2.2) := by
  decide

/-- C4 (witness): the size 4k and the ratio 16:9 in the x convention, ratio
first. -/
theorem C4_two_tokens_either_order_witness :
    mapGet (mapEntries (NormalizeImageModel
        ("gemini-3-pro-image-".toList ++ "16x9".toList ++ '-' :: "4k".toList)).2)
      ImageSizeMetadataKey = some (Value.str "4K".toList) ∧
    mapGet (mapEntries (NormalizeImageModel
        ("gemini-3-pro-image-".toList ++ "16x9".toList ++ '-' :: "4k".toList)).2)
      ImageAspectRatioMetadataKey = some (Value.str "16:9".toList) :=
  C4_two_tokens_either_order ("4k".toList, "4K".toList) (by decide)
    ("16-9".toList, "16x9".toList, "16:9".toList) (by decide) "16x9".toList (by decide)
    ("gemini-3-pro-image-".toList ++ "16x9".toList ++ '-' :: "4k".toList) (by decide)

/-! ## Maps, lower-casing and splitting -/

theorem mapGet_eq_none_iff {α : Type} (m : List (Str × α)) (k : Str) :
    mapGet m k = none ↔ k ∉ m.map Prod.fst := by
  induction m with
  | nil => simp [mapGet]
  | cons kv m ih =>
    obtain ⟨k', v⟩ := kv
    by_cases h : k = k'
    · simp only [mapGet, if_pos h, List.map_cons, List.mem_cons]
      constructor
      · intro h1
        cases h1
      · intro h2
        exact absurd (Or.inl h) h2
    · simp only [mapGet, if_neg h, List.map_cons, List.mem_cons, ih]
      constructor
      · intro h1 h2
        rcases h2 with h2 | h2
        · exact h h2
        · exact h1 h2
      · intro h1 h2
        exact h1 (Or.inr h2)

theorem mapGet_some_mem {α : Type} (m : List (Str × α)) (k : Str) (v : α)
    (h : mapGet m k = some v) : (k, v) ∈ m := by
  induction m with
  | nil => simp [mapGet] at h
  | cons kv m ih =>
    obtain ⟨k', w⟩ := kv
    by_cases hk : k = k'
    · simp [mapGet, hk] at h
      simp [hk, h]
    · simp [mapGet, hk] at h
      exact List.mem_cons_of_mem _ (ih h)

theorem toLowerRune_eq_stable {c d : Char} (h : toLowerRune c = d)
    (hd : ¬ (97 ≤ d.toNat ∧ d.toNat ≤ 122)) : c = d := by
  unfold toLowerRune at h
  split_ifs at h with h1 h2 h3
  · exfalso
    obtain ⟨n, hn⟩ : ∃ n, c.toNat = n := ⟨_, rfl⟩
    rw [hn] at h h1
    obtain ⟨l, u⟩ := h1
    subst h
    interval_cases n <;> exact hd (by decide)
  · subst h; exact absurd (by decide) hd
  · subst h; exact absurd (by decide) hd
  · exact h

theorem stringsToLower_eq_stable (p k : Str) (h : stringsToLower p = k)
    (hk : ∀ d ∈ k, stableChar d = true) : p = k := by
  induction p generalizing k with
  | nil => simpa [stringsToLower] using h
  | cons c p ih =>
    cases k with
    | nil => simp [stringsToLower] at h
    | cons d k =>
      simp only [stringsToLower, List.map_cons, List.cons.injEq] at h
      have hd : stableChar d = true := hk d (List.mem_cons_self _ _)
      have hcd : c = d := toLowerRune_eq_stable h.1 (by
        intro hh
        simp [stableChar, hh.1, hh.2] at hd)
      have hpk : p = k := ih k h.2 (fun e he => hk e (List.mem_cons_of_mem _ he))
      rw [hcd, hpk]

theorem toLowerRune_dash {c : Char} (h : toLowerRune c = '-') : c = '-' :=
  toLowerRune_eq_stable h (by decide)

theorem dash_not_mem_toLower {p : Str} (hp : '-' ∉ p) : '-' ∉ stringsToLower p := by
  intro h
  simp only [stringsToLower, List.mem_map] at h
  obtain ⟨c, hc, hcd⟩ := h
  exact hp (toLowerRune_dash hcd ▸ hc)

theorem beforeDash_append (a b : Str) (ha : '-' ∉ a) : beforeDash (a ++ '-' :: b) = a := by
  induction a with
  | nil => simp [beforeDash]
  | cons c a ih =>
    have hc : c ≠ '-' := fun e => ha (e ▸ List.mem_cons_self _ _)
    have ha' : '-' ∉ a := fun e => ha (List.mem_cons_of_mem _ e)
    have := ih ha'
    simp only [beforeDash] at this
    simp [beforeDash, hc, this]

theorem sep_not_mem_stringsSplit (sep : Char) (s : Str) :
    ∀ f ∈ stringsSplit sep s, sep ∉ f := by
  induction s with
  | nil => simp [stringsSplit]
  | cons c s ih =>
    simp only [stringsSplit]
    split_ifs with hc
    · intro f hf
      rcases List.mem_cons.mp hf with rfl | hf
      · simp
      · exact ih f hf
    · split
      · intro f hf
        simp only [List.mem_singleton] at hf
        subst hf
        simpa using Ne.symm hc
      · rename_i p ps hps
        intro f hf
        rcases List.mem_cons.mp hf with rfl | hf
        · have hp := ih p (by rw [hps]; exact List.mem_cons_self _ _)
          intro h
          rcases List.mem_cons.mp h with h | h
          · exact hc h.symm
          · exact hp h
        · exact ih f (by rw [hps]; exact List.mem_cons_of_mem _ hf)

theorem stringsSplit_append (sep : Char) (a b : Str) (ha : sep ∉ a) :
    stringsSplit sep (a ++ sep :: b) = a :: stringsSplit sep b := by
  induction a with
  | nil => simp [stringsSplit]
  | cons c a ih =>
    have hc : c ≠ sep := fun e => ha (e ▸ List.mem_cons_self _ _)
    have ha' : sep ∉ a := fun e => ha (List.mem_cons_of_mem _ e)
    simp [stringsSplit, hc, ih ha']

theorem stringsContains_singleton (s : Str) (c : Char) (h : c ∈ s) :
    stringsContains s [c] = true := by
  induction s with
  | nil => simp at h
  | cons a s ih =>
    rcases List.mem_cons.mp h with rfl | h
    · simp [stringsContains, List.isPrefixOf]
    · simp [stringsContains, ih h]

theorem mem_of_mem_replaceAll {s : Str} {old new : Char} (h : new ∈ stringsReplaceAll old new s) :
    new ∈ s ∨ old ∈ s := by
  simp only [stringsReplaceAll, List.mem_map] at h
  obtain ⟨c, hc, hcd⟩ := h
  split_ifs at hcd with e
  · right; exact e ▸ hc
  · left; exact hcd ▸ hc

theorem old_not_mem_replaceAll (s : Str) {old new : Char} (hne : new ≠ old) :
    old ∉ stringsReplaceAll old new s := by
  intro h
  simp only [stringsReplaceAll, List.mem_map] at h
  obtain ⟨c, _, hcd⟩ := h
  split_ifs at hcd with e
  · exact hne hcd
  · exact e hcd

/-! ## The tables -/

theorem sizeKeys_eq : imageSizeMap.map Prod.fst = sizeForms.map (fun z => z.1) := by decide

theorem ratioKeys_with_dash :
    ∀ k ∈ aspectRatioMap.map Prod.fst, '-' ∈ k →
      (∀ d ∈ beforeDash k, stableChar d = true) ∧ k ∈ dashRatios := by
  decide

theorem dashRatios_keys :
    ∀ k ∈ dashRatios, k ∈ aspectRatioMap.map Prod.fst ∧
      stringsToLower (beforeDash k) = beforeDash k ∧ '-' ∈ k := by
  decide

theorem ratioKeys_without_x :
    ∀ k ∈ aspectRatioMap.map Prod.fst, 'x' ∉ k → k ∈ dashRatios := by
  decide

theorem ratioTable_values : ∀ kv ∈ aspectRatioMap, kv.2 ≠ [] ∧ kv.2 ∈ ratioValues := by
  decide

theorem sizeTable_values : ∀ kv ∈ imageSizeMap, kv.2 ≠ [] ∧ kv.2 ∈ sizeValues := by
  decide

theorem size_lookup_none_iff (k : Str) :
    mapGet imageSizeMap k = none ↔ k ∉ sizeForms.map (fun z => z.1) := by
  rw [mapGet_eq_none_iff, sizeKeys_eq]

theorem pair_lookup_none_iff (p q : Str) (hp : '-' ∉ p) :
    mapGet aspectRatioMap (stringsToLower p ++ ['-'] ++ q) = none ↔
      p ++ '-' :: q ∉ dashRatios := by
  have e : stringsToLower p ++ ['-'] ++ q = stringsToLower p ++ '-' :: q := by simp
  rw [mapGet_eq_none_iff, e]
  apply not_congr
  constructor
  · intro h
    have hf := ratioKeys_with_dash _ h (by simp)
    rw [beforeDash_append _ _ (dash_not_mem_toLower hp)] at hf
    have hpl : p = stringsToLower p := stringsToLower_eq_stable p _ rfl hf.1
    have e2 : p ++ '-' :: q = stringsToLower p ++ '-' :: q := congrArg (fun t => t ++ '-' :: q) hpl
    rw [e2]
    exact hf.2
  · intro h
    have hf := dashRatios_keys _ h
    rw [beforeDash_append _ _ hp] at hf
    rw [hf.2.1]
    exact hf.1

theorem xStep_of_not_ratio (part : Str) (st : Scan)
    (h : stringsReplaceAll 'x' '-' part ∉ dashRatios) : xStep part st = st := by
  unfold xStep
  split_ifs
  · split
    · rename_i r hr
      exfalso
      apply h
      apply ratioKeys_without_x
      · by_contra hk
        rw [← mapGet_eq_none_iff, hr] at hk
        cases hk
      · exact old_not_mem_replaceAll part (by decide)
    · rfl
  · rfl

theorem xStep_of_ratio (part : Str) (st : Scan) (hd : '-' ∉ part)
    (h : stringsReplaceAll 'x' '-' part ∈ dashRatios) :
    ∃ r, r ≠ [] ∧ xStep part st = { st with aspectRatio := r } := by
  have hf := dashRatios_keys _ h
  have hx : 'x' ∈ part := by
    rcases mem_of_mem_replaceAll hf.2.2 with h1 | h1
    · exact absurd h1 hd
    · exact h1
  have hc := stringsContains_singleton part 'x' hx
  cases hr : mapGet aspectRatioMap (stringsReplaceAll 'x' '-' part) with
  | none =>
    rw [mapGet_eq_none_iff] at hr
    exact absurd hf.1 hr
  | some r =>
    refine ⟨r, (ratioTable_values _ (mapGet_some_mem _ _ _ hr)).1, ?_⟩
    simp [xStep, hc, hr]

theorem xStep_cases (part : Str) (st : Scan) :
    xStep part st = st ∨ ∃ r ∈ ratioValues, xStep part st = { st with aspectRatio := r } := by
  unfold xStep
  split_ifs
  · split
    · rename_i r hr
      right
      exact ⟨r, (ratioTable_values _ (mapGet_some_mem _ _ _ hr)).2, rfl⟩
    · left; rfl
  · left; rfl

theorem noToken_cons (p : Str) (rest : List Str) :
    noToken (p :: rest) ↔
      stringsToLower p ∉ sizeForms.map (fun z => z.1) ∧
      (∀ q ∈ rest.head?, p ++ '-' :: q ∉ dashRatios) ∧
      stringsReplaceAll 'x' '-' (stringsToLower p) ∉ dashRatios ∧
      noToken rest := by
  cases rest with
  | nil =>
    simp only [noToken, adjacentPairs, List.mem_singleton, forall_eq, List.head?_nil,
      List.not_mem_nil, Option.mem_def]
    constructor
    · rintro ⟨h1, -, h3⟩
      exact ⟨h1, by simp, h3, by simp, by simp, by simp⟩
    · rintro ⟨h1, -, h3, -⟩
      exact ⟨h1, by simp, h3⟩
  | cons q rest =>
    simp only [noToken, adjacentPairs, List.forall_mem_cons, List.head?_cons, Option.mem_def,
      Option.some.injEq, forall_eq']
    tauto

/-- The scan leaves both fields empty exactly when it started with both empty
and no fragment, or pair of neighbouring fragments, is a token. -/
theorem scanParts_empty_iff (parts : List Str) (st : Scan) (hd : ∀ f ∈ parts, '-' ∉ f) :
    ((scanParts parts st).aspectRatio = [] ∧ (scanParts parts st).imageSize = []) ↔
      (st.aspectRatio = [] ∧ st.imageSize = [] ∧ noToken parts) := by
  induction parts, st using scanParts.induct with
  | case1 st => simp [scanParts, noToken, adjacentPairs]
  | case2 p st size hs =>
    have hne := (sizeTable_values _ (mapGet_some_mem _ _ _ hs)).1
    have hin : ¬ stringsToLower p ∉ sizeForms.map (fun z => z.1) := by
      rw [← size_lookup_none_iff, hs]; simp
    simp only [scanParts, hs, noToken_cons]
    constructor
    · intro h; exact absurd h.2 hne
    · intro h; exact absurd h.2.2.1 hin
  | case3 p st hs =>
    have hp : '-' ∉ p := hd p (List.mem_cons_self _ _)
    have hin := (size_lookup_none_iff _).mp hs
    simp only [scanParts, hs, noToken_cons]
    by_cases hx : stringsReplaceAll 'x' '-' (stringsToLower p) ∈ dashRatios
    · obtain ⟨r, hr, hxs⟩ := xStep_of_ratio (stringsToLower p) st (dash_not_mem_toLower hp) hx
      rw [hxs]
      constructor
      · intro h; exact absurd h.1 hr
      · intro h; exact absurd hx h.2.2.2.2.1
    · rw [xStep_of_not_ratio _ _ hx]
      constructor
      · intro h
        exact ⟨h.1, h.2, hin, by simp, hx, by simp [noToken, adjacentPairs]⟩
      · intro h
        exact ⟨h.1, h.2.1⟩
  | case4 p q rest st size hs ih =>
    have hne := (sizeTable_values _ (mapGet_some_mem _ _ _ hs)).1
    have hin : ¬ stringsToLower p ∉ sizeForms.map (fun z => z.1) := by
      rw [← size_lookup_none_iff, hs]; simp
    have ih' := ih (fun f hf => hd f (List.mem_cons_of_mem _ hf))
    simp only [scanParts, hs, noToken_cons p]
    rw [ih']
    constructor
    · intro h; exact absurd h.2.1 hne
    · intro h; exact absurd h.2.2.1 hin
  | case5 p q rest st hs r hr ih =>
    have hp : '-' ∉ p := hd p (List.mem_cons_self _ _)
    have hne := (ratioTable_values _ (mapGet_some_mem _ _ _ hr)).1
    have hpair : ¬ p ++ '-' :: q ∉ dashRatios := by
      rw [← pair_lookup_none_iff p q hp, hr]; simp
    have ih' := ih (fun f hf => hd f (List.mem_cons_of_mem _ (List.mem_cons_of_mem _ hf)))
    simp only [scanParts, hs, hr, noToken_cons p]
    rw [ih']
    constructor
    · intro h; exact absurd h.1 hne
    · intro h; exact absurd (h.2.2.2.1 q (by simp)) hpair
  | case6 p q rest st hs hr ih =>
    have hp : '-' ∉ p := hd p (List.mem_cons_self _ _)
    have hin := (size_lookup_none_iff _).mp hs
    have hpair := (pair_lookup_none_iff p q hp).mp hr
    have ih' := ih (fun f hf => hd f (List.mem_cons_of_mem _ hf))
    simp only [scanParts, hs, hr, noToken_cons p]
    rw [ih']
    by_cases hx : stringsReplaceAll 'x' '-' (stringsToLower p) ∈ dashRatios
    · obtain ⟨r, hr, hxs⟩ := xStep_of_ratio (stringsToLower p) st (dash_not_mem_toLower hp) hx
      rw [hxs]
      constructor
      · intro h; exact absurd h.1 hr
      · intro h; exact absurd hx h.2.2.2.2.1
    · rw [xStep_of_not_ratio _ _ hx]
      constructor
      · intro h
        refine ⟨h.1, h.2.1, hin, ?_, hx, h.2.2⟩
        intro q' hq'
        simp at hq'
        rw [← hq']
        exact hpair
      · intro h
        exact ⟨h.1, h.2.1, h.2.2.2.2.2⟩

/-! ## The shape of the results of `NormalizeImageModel` -/

theorem matchWithBase_some {b m base sfx : Str} (h : matchWithBase b m = some (base, sfx)) :
    base = b ∧ m = b ++ '-' :: sfx ∧ sfx ≠ [] ∧ '\n' ∉ sfx := by
  unfold matchWithBase at h
  split at h
  · rename_i suffix hdf
    split_ifs at h with hdot
    simp only [Option.some.injEq, Prod.mk.injEq] at h
    obtain ⟨rfl, rfl⟩ := h
    have hm := dropFront_eq_some hdf
    have hdot2 : suffix ≠ [] ∧ '\n' ∉ suffix := by simpa [dotPlusToEnd] using hdot
    exact ⟨rfl, by simpa using hm, hdot2.1, hdot2.2⟩
  · cases h

theorem matchWithBase_append (b sfx : Str) (hne : sfx ≠ []) (hnl : '\n' ∉ sfx) :
    matchWithBase b (b ++ '-' :: sfx) = some (b, sfx) := by
  have e : b ++ '-' :: sfx = (b ++ ['-']) ++ sfx := by simp
  have h3 : dotPlusToEnd sfx = true := by
    simp [dotPlusToEnd, hne, hnl]
  unfold matchWithBase
  rw [e, dropFront_append]
  simp [h3]

theorem findStringSubmatch_some {m base sfx : Str}
    (h : findStringSubmatch m = some (base, sfx)) :
    (base = previewBase ∨ base = bareBase) ∧ m = base ++ '-' :: sfx ∧ sfx ≠ [] ∧ '\n' ∉ sfx := by
  unfold findStringSubmatch at h
  split at h
  · rename_i r hr
    cases h
    obtain ⟨h1, h2, h3, h4⟩ := matchWithBase_some hr
    exact ⟨Or.inl h1, h1 ▸ h2, h3, h4⟩
  · obtain ⟨h1, h2, h3, h4⟩ := matchWithBase_some h
    exact ⟨Or.inr h1, h1 ▸ h2, h3, h4⟩

theorem parseImageSuffix_of_match {m base sfx : Str}
    (hf : findStringSubmatch m = some (base, sfx)) :
    parseImageSuffix m =
      if (scanSuffix sfx).aspectRatio = [] ∧ (scanSuffix sfx).imageSize = [] then ⟨m, [], []⟩
      else ⟨base, (scanSuffix sfx).aspectRatio, (scanSuffix sfx).imageSize⟩ := by
  simp only [parseImageSuffix, hf, scanSuffix]

theorem NormalizeImageModel_of_match {m base sfx : Str}
    (hb : m ≠ bareBase) (hp : m ≠ previewBase)
    (hf : findStringSubmatch m = some (base, sfx)) :
    NormalizeImageModel m =
      if (scanSuffix sfx).aspectRatio = [] ∧ (scanSuffix sfx).imageSize = [] then (m, none)
      else (base, some (buildMetadata m (scanSuffix sfx).aspectRatio (scanSuffix sfx).imageSize)) := by
  obtain ⟨hbase, hm, -, -⟩ := findStringSubmatch_some hf
  have hc : stringsContains m bareBase = true := by
    rw [hm]
    rcases hbase with rfl | rfl
    · rw [previewBase_eq, List.append_assoc]
      exact stringsContains_self_append _ _
    · exact stringsContains_self_append _ _
  have hnil : m ≠ [] := by
    rw [hm]
    simp
  simp only [NormalizeImageModel, hc, parseImageSuffix_of_match hf]
  by_cases hst : (scanSuffix sfx).aspectRatio = [] ∧ (scanSuffix sfx).imageSize = []
  · simp [hnil, hb, hp, hst]
  · simp [hnil, hb, hp, hst]

theorem NormalizeImageModel_of_no_match {m : Str} (hf : findStringSubmatch m = none) :
    NormalizeImageModel m = (m, none) := by
  simp only [NormalizeImageModel, parseImageSuffix, hf]
  split_ifs <;> simp_all

/-- Either the input comes back unchanged with nil metadata, or the pattern
matched, the scan recorded a field, and the result is the matched base with the
metadata built from the scan. -/
theorem NormalizeImageModel_cases (m : Str) :
    NormalizeImageModel m = (m, none) ∨
    ∃ base sfx, findStringSubmatch m = some (base, sfx) ∧
      ¬ ((scanSuffix sfx).aspectRatio = [] ∧ (scanSuffix sfx).imageSize = []) ∧
      NormalizeImageModel m
        = (base, some (buildMetadata m (scanSuffix sfx).aspectRatio (scanSuffix sfx).imageSize)) := by
  by_cases hb : m = bareBase
  · left; subst hb; decide
  by_cases hp : m = previewBase
  · left; subst hp; decide
  cases hf : findStringSubmatch m with
  | none => left; exact NormalizeImageModel_of_no_match hf
  | some r =>
    obtain ⟨base, sfx⟩ := r
    have h := NormalizeImageModel_of_match hb hp hf
    by_cases hst : (scanSuffix sfx).aspectRatio = [] ∧ (scanSuffix sfx).imageSize = []
    · left
      rw [h, if_pos hst]
    · right
      refine ⟨base, sfx, rfl, hst, ?_⟩
      rw [h, if_neg hst]

/-! ## C5 -/

theorem preview_fragment_no_token (parts : List Str) :
    noToken ("preview".toList :: parts) ↔ noToken parts := by
  rw [noToken_cons]
  constructor
  · intro h; exact h.2.2.2
  · intro h
    refine ⟨by decide, ?_, by decide, h⟩
    intro q _ hk
    have hf := (dashRatios_keys _ hk).2.1
    rw [beforeDash_append _ _ (by decide)] at hf
    have hall : ∀ k ∈ dashRatios, beforeDash k ≠ "preview".toList := by decide
    exact hall _ hk (beforeDash_append _ _ (by decide))

theorem unchanged_iff_scan_empty {m base sfx : Str}
    (hb : m ≠ bareBase) (hp : m ≠ previewBase)
    (hf : findStringSubmatch m = some (base, sfx)) :
    NormalizeImageModel m = (m, none) ↔ noToken (stringsSplit '-' sfx) := by
  rw [NormalizeImageModel_of_match hb hp hf]
  have hscan := scanParts_empty_iff (stringsSplit '-' sfx) ⟨[], []⟩
    (sep_not_mem_stringsSplit '-' sfx)
  by_cases hst : (scanSuffix sfx).aspectRatio = [] ∧ (scanSuffix sfx).imageSize = []
  · rw [if_pos hst]
    have := hscan.mp hst
    simp only [true_iff]
    exact this.2.2
  · rw [if_neg hst]
    constructor
    · intro h
      simp at h
    · intro h
      exact absurd (hscan.mpr ⟨rfl, rfl, h⟩) hst

/-- C5 (counterexample): on "gemini-3-pro-image-16X9" no token is recognizable
in the sense of the claim as written (the fragment "16X9" does not lowercase to
a size, has no neighbour, and replacing its "x" characters leaves "16X9", not a
dash ratio), yet the identifier is not returned unchanged with nil metadata:
the ratio 16:9 is extracted. -/
theorem C5_uppercase_x_is_recognised :
    "16X9".toList ≠ [] ∧ '\n' ∉ "16X9".toList ∧
    ¬ (NormalizeImageModel ("gemini-3-pro-image-".toList ++ "16X9".toList)
          = ("gemini-3-pro-image-".toList ++ "16X9".toList, none)
        ↔ noTokenAsWritten (stringsSplit '-' "16X9".toList)) := by
  refine ⟨by decide, by decide, ?_⟩
  intro h
  have hno : noTokenAsWritten (stringsSplit '-' "16X9".toList) := by
    unfold noTokenAsWritten
    decide
  have hN := h.mpr hno
  revert hN
  decide

/-- C5 (amended): for every identifier "gemini-3-pro-image-" followed by a
non-empty suffix with no line break, `NormalizeImageModel` returns the
identifier unchanged with nil metadata if and only if, among the dash-split
fragments of the suffix, no fragment lowercases to 1k/2k/4k, no two adjacent
fragments joined by "-" form one of the eight dash ratios, and no lowercased
fragment with every "x" replaced by "-" is one of the eight dash ratios. -/
theorem C5_unchanged_iff_no_token (suffix : Str) (hne : suffix ≠ []) (hnl : '\n' ∉ suffix) :
    NormalizeImageModel ("gemini-3-pro-image-".toList ++ suffix)
        = ("gemini-3-pro-image-".toList ++ suffix, none)
      ↔ noToken (stringsSplit '-' suffix) := by
  have epfx : "gemini-3-pro-image-".toList ++ suffix = bareBase ++ '-' :: suffix := by
    have e : "gemini-3-pro-image-".toList = bareBase ++ ['-'] := by decide
    rw [e]
    simp
  rw [epfx]
  have hb : bareBase ++ '-' :: suffix ≠ bareBase := by
    intro h
    have := congrArg List.length h
    simp at this
  by_cases hpre : "preview".toList = suffix
  · subst hpre
    constructor
    · intro _
      unfold noToken
      decide
    · intro _
      decide
  have hp : bareBase ++ '-' :: suffix ≠ previewBase := by
    intro h
    rw [previewBase_eq] at h
    have h' := List.append_cancel_left h
    have e : "-preview".toList = '-' :: "preview".toList := by decide
    rw [e] at h'
    exact hpre (List.cons.inj h').2.symm
  by_cases hpp : "preview-".toList.isPrefixOf suffix = true
  · rw [List.isPrefixOf_iff_prefix] at hpp
    obtain ⟨rest, rfl⟩ := hpp
    have esplit : stringsSplit '-' ("preview-".toList ++ rest)
        = "preview".toList :: stringsSplit '-' rest := by
      have e : "preview-".toList ++ rest = "preview".toList ++ '-' :: rest := by
        have e1 : "preview-".toList = "preview".toList ++ ['-'] := by decide
        rw [e1]
        simp
      rw [e]
      exact stringsSplit_append '-' _ _ (by decide)
    rw [esplit, preview_fragment_no_token]
    by_cases hrest : rest = []
    · subst hrest
      constructor
      · intro _
        unfold noToken
        decide
      · intro _
        decide
    · have hnl' : '\n' ∉ rest := fun h => hnl (List.mem_append_right _ h)
      have em : bareBase ++ '-' :: ("preview-".toList ++ rest) = previewBase ++ '-' :: rest := by
        have e1 : bareBase ++ '-' :: "preview-".toList = previewBase ++ ['-'] := by decide
        have e2 : bareBase ++ '-' :: ("preview-".toList ++ rest)
            = (bareBase ++ '-' :: "preview-".toList) ++ rest := by simp
        rw [e2, e1]
        simp
      have hf : findStringSubmatch (bareBase ++ '-' :: ("preview-".toList ++ rest))
          = some (previewBase, rest) := by
        rw [em]
        simp only [findStringSubmatch, matchWithBase_append previewBase rest hrest hnl']
      exact unchanged_iff_scan_empty hb hp hf
  · have hpp' : "preview-".toList.isPrefixOf suffix = false := by
      cases hq : "preview-".toList.isPrefixOf suffix with
      | true => exact absurd hq hpp
      | false => rfl
    exact unchanged_iff_scan_empty hb hp (findStringSubmatch_bare suffix hnl hne hpp')

/-- C5 (witness): the amended statement at the suffix "unknown", with the
example of the claim. -/
theorem C5_unchanged_iff_no_token_witness :
    (NormalizeImageModel ("gemini-3-pro-image-".toList ++ "unknown".toList)
        = ("gemini-3-pro-image-".toList ++ "unknown".toList, none)
      ↔ noToken (stringsSplit '-' "unknown".toList)) ∧
    NormalizeImageModel "gemini-3-pro-image-unknown".toList
      = ("gemini-3-pro-image-unknown".toList, none) :=
  ⟨C5_unchanged_iff_no_token "unknown".toList (by decide) (by decide), by decide⟩

/-! ## C6 -/

/-- The scan only ever records values of the two tables. -/
theorem scanParts_values (parts : List Str) (st : Scan)
    (ha : st.aspectRatio = [] ∨ st.aspectRatio ∈ ratioValues)
    (hz : st.imageSize = [] ∨ st.imageSize ∈ sizeValues) :
    ((scanParts parts st).aspectRatio = [] ∨ (scanParts parts st).aspectRatio ∈ ratioValues) ∧
    ((scanParts parts st).imageSize = [] ∨ (scanParts parts st).imageSize ∈ sizeValues) := by
  induction parts, st using scanParts.induct with
  | case1 st => exact ⟨ha, hz⟩
  | case2 p st size hs =>
    simp only [scanParts, hs]
    exact ⟨ha, Or.inr (sizeTable_values _ (mapGet_some_mem _ _ _ hs)).2⟩
  | case3 p st hs =>
    simp only [scanParts, hs]
    rcases xStep_cases (stringsToLower p) st with h | ⟨r, hr, h⟩
    · rw [h]; exact ⟨ha, hz⟩
    · rw [h]; exact ⟨Or.inr hr, hz⟩
  | case4 p q rest st size hs ih =>
    simp only [scanParts, hs]
    exact ih ha (Or.inr (sizeTable_values _ (mapGet_some_mem _ _ _ hs)).2)
  | case5 p q rest st hs r hr ih =>
    simp only [scanParts, hs, hr]
    exact ih (Or.inr (ratioTable_values _ (mapGet_some_mem _ _ _ hr)).2) hz
  | case6 p q rest st hs hr ih =>
    simp only [scanParts, hs, hr]
    rcases xStep_cases (stringsToLower p) st with h | ⟨r, hr', h⟩
    · rw [h] at ih ⊢; exact ih ha hz
    · rw [h] at ih ⊢; exact ih (Or.inr hr') hz

theorem buildMetadata_eq (s ar sz : Str) :
    buildMetadata s ar sz =
      (ImageOriginalModelMetadataKey, Value.str s) ::
        ((if ar ≠ [] then [(ImageAspectRatioMetadataKey, Value.str ar)] else []) ++
         (if sz ≠ [] then [(ImageSizeMetadataKey, Value.str sz)] else [])) := by
  have h1 : ImageAspectRatioMetadataKey ≠ ImageOriginalModelMetadataKey := by decide
  have h2 : ImageSizeMetadataKey ≠ ImageOriginalModelMetadataKey := by decide
  have h3 : ImageSizeMetadataKey ≠ ImageAspectRatioMetadataKey := by decide
  by_cases ha : ar = [] <;> by_cases hz : sz = [] <;>
    simp [buildMetadata, mapSet, ha, hz, h1, h2, h3]

/-- C6: for every input, the metadata returned by `NormalizeImageModel` is
nil, or a map whose keys are among image_original_model, image_aspect_ratio,
image_size, which holds image_original_model equal to the verbatim input and
at least one of the other two keys, with image_aspect_ratio (if present) one of
the eight canonical ratios and image_size (if present) one of 1K, 2K, 4K. -/
theorem C6_metadata_invariant (s : Str) :
    (NormalizeImageModel s).2 = none ∨
    ∃ m, (NormalizeImageModel s).2 = some m ∧
      (∀ kv ∈ m, kv.1 ∈ [ImageOriginalModelMetadataKey, ImageAspectRatioMetadataKey,
        ImageSizeMetadataKey]) ∧
      mapGet m ImageOriginalModelMetadataKey = some (Value.str s) ∧
      (mapGet m ImageAspectRatioMetadataKey ≠ none ∨ mapGet m ImageSizeMetadataKey ≠ none) ∧
      (∀ v, mapGet m ImageAspectRatioMetadataKey = some v →
        ∃ r ∈ ["1:1".toList, "16:9".toList, "9:16".toList, "21:9".toList, "4:3".toList,
          "3:4".toList, "3:2".toList, "2:3".toList], v = Value.str r) ∧
      (∀ v, mapGet m ImageSizeMetadataKey = some v →
        ∃ z ∈ ["1K".toList, "2K".toList, "4K".toList], v = Value.str z) := by
  rcases NormalizeImageModel_cases s with h | ⟨base, sfx, -, hst, h⟩
  · left; rw [h]
  · right
    have hv := scanParts_values (stringsSplit '-' sfx) ⟨[], []⟩ (Or.inl rfl) (Or.inl rfl)
    have hrv : ratioValues = ["1:1".toList, "16:9".toList, "9:16".toList, "21:9".toList,
        "4:3".toList, "3:4".toList, "3:2".toList, "2:3".toList] := by decide
    have hsv : sizeValues = ["1K".toList, "2K".toList, "4K".toList] := by decide
    rw [hrv, hsv] at hv
    have h1 : ImageAspectRatioMetadataKey ≠ ImageOriginalModelMetadataKey := by decide
    have h2 : ImageSizeMetadataKey ≠ ImageOriginalModelMetadataKey := by decide
    have h3 : ImageSizeMetadataKey ≠ ImageAspectRatioMetadataKey := by decide
    refine ⟨_, by rw [h], ?_⟩
    rw [buildMetadata_eq]
    change ¬ ((scanSuffix sfx).aspectRatio = [] ∧ (scanSuffix sfx).imageSize = []) at hst
    change ((scanSuffix sfx).aspectRatio = [] ∨ (scanSuffix sfx).aspectRatio ∈ _) ∧
      ((scanSuffix sfx).imageSize = [] ∨ (scanSuffix sfx).imageSize ∈ _) at hv
    generalize (scanSuffix sfx).aspectRatio = ar at hst hv ⊢
    generalize (scanSuffix sfx).imageSize = sz at hst hv ⊢
    obtain ⟨hva, hvz⟩ := hv
    by_cases ha : ar = [] <;> by_cases hz : sz = []
    · exact absurd ⟨ha, hz⟩ hst
    · have hz' := hvz.resolve_left hz
      subst ha
      simp only [ne_eq, not_true_eq_false, if_false, hz, not_false_eq_true, if_true,
        List.nil_append]
      refine ⟨?_, ?_, ?_, ?_, ?_⟩
      · intro kv hkv
        simp only [List.mem_cons, List.mem_singleton, List.not_mem_nil, or_false] at hkv
        rcases hkv with rfl | rfl <;> simp
      · simp [mapGet]
      · right
        simp [mapGet, h2]
      · intro v hv
        simp [mapGet, h1, Ne.symm h3] at hv
      · intro v hv
        simp only [mapGet, if_neg h2, if_true] at hv
        cases hv
        exact ⟨sz, hz', rfl⟩
    · have ha' := hva.resolve_left ha
      subst hz
      simp only [ne_eq, not_true_eq_false, if_false, ha, not_false_eq_true, if_true,
        List.append_nil]
      refine ⟨?_, ?_, ?_, ?_, ?_⟩
      · intro kv hkv
        simp only [List.mem_cons, List.mem_singleton, List.not_mem_nil, or_false] at hkv
        rcases hkv with rfl | rfl <;> simp
      · simp [mapGet]
      · left
        simp [mapGet, h1]
      · intro v hv
        simp only [mapGet, if_neg h1, if_true] at hv
        cases hv
        exact ⟨ar, ha', rfl⟩
      · intro v hv
        simp [mapGet, h2, h3] at hv
    · have ha' := hva.resolve_left ha
      have hz' := hvz.resolve_left hz
      simp only [ne_eq, ha, hz, not_false_eq_true, if_true, List.singleton_append]
      refine ⟨?_, ?_, ?_, ?_, ?_⟩
      · intro kv hkv
        simp only [List.mem_cons, List.mem_singleton, List.not_mem_nil, or_false] at hkv
        rcases hkv with rfl | rfl | rfl <;> simp
      · simp [mapGet]
      · left
        simp [mapGet, h1]
      · intro v hv
        simp only [mapGet, if_neg h1, if_true] at hv
        cases hv
        exact ⟨ar, ha', rfl⟩
      · intro v hv
        simp only [mapGet, if_neg h2, if_neg h3, if_true] at hv
        cases hv
        exact ⟨sz, hz', rfl⟩

/-! ## C7 -/

/-- C7: for every input, `NormalizeImageModel` applied to the base name it
returned gives that base name back unchanged, with nil metadata. -/
theorem C7_renormalize_base_noop (s : Str) :
    NormalizeImageModel (NormalizeImageModel s).1 = ((NormalizeImageModel s).1, none) := by
  rcases NormalizeImageModel_cases s with h | ⟨base, sfx, hf, -, h⟩
  · rw [h]
    exact h
  · rw [h]
    rcases (findStringSubmatch_some hf).1 with rfl | rfl
    · show NormalizeImageModel previewBase = (previewBase, none)
      decide
    · show NormalizeImageModel bareBase = (bareBase, none)
      decide

/-! ## C8 -/

/-- C8: the two canonical base forms are returned unchanged with nil
metadata. -/
theorem C8_canonical_bases_unchanged :
    NormalizeImageModel "gemini-3-pro-image".toList = ("gemini-3-pro-image".toList, none) ∧
    NormalizeImageModel "gemini-3-pro-image-preview".toList
      = ("gemini-3-pro-image-preview".toList, none) := by
  decide

/-! ## C9 -/

theorem readField_eq (kvs : List (Str × Value)) (key : Str) :
    readField kvs key =
      if trimmedField (some kvs) key ≠ [] then some (trimmedField (some kvs) key) else none := by
  unfold readField trimmedField
  simp only [mapEntries]
  cases hg : mapGet kvs key with
  | none => simp [asString]
  | some w =>
    cases w with
    | str v =>
      simp only [asString]
      by_cases ht : stringsTrimSpace v = []
      · simp [ht]
      · simp [ht]
    | other t => simp [asString]

theorem mapEntries_of_len_zero {m : Metadata} (h : mapLen m = 0) : mapEntries m = [] := by
  cases m with
  | none => rfl
  | some kvs =>
    simp only [mapLen, List.length_eq_zero] at h
    simp [mapEntries, h]

theorem trimmedField_of_len_zero {m : Metadata} (h : mapLen m = 0) (key : Str) :
    trimmedField m key = [] := by
  simp [trimmedField, mapEntries_of_len_zero h, mapGet]

theorem ImageConfigFromMetadata_eq (m : Metadata) :
    ImageConfigFromMetadata m =
      (trimmedField m ImageAspectRatioMetadataKey, trimmedField m ImageSizeMetadataKey,
        decide (trimmedField m ImageAspectRatioMetadataKey ≠ [] ∨
          trimmedField m ImageSizeMetadataKey ≠ [])) := by
  unfold ImageConfigFromMetadata
  by_cases h0 : mapLen m = 0
  · simp [h0, trimmedField_of_len_zero h0]
  · rw [if_neg h0]
    cases m with
    | none => simp [mapLen] at h0
    | some kvs =>
      simp only [mapEntries, readField_eq]
      by_cases ha : trimmedField (some kvs) ImageAspectRatioMetadataKey = [] <;>
        by_cases hz : trimmedField (some kvs) ImageSizeMetadataKey = [] <;>
        simp [ha, hz]

/-- C9: for every metadata map, `ImageConfigFromMetadata` returns as
aspectRatio the whitespace-trimmed value under image_aspect_ratio when that
value is a string that is non-blank after trimming and "" otherwise, likewise
imageSize from image_size, and found is true exactly when one of the two
returned strings is non-empty; a map holding neither key, the nil map and the
empty map all give ("", "", false). -/
theorem C9_config_from_metadata (m : Metadata) :
    (ImageConfigFromMetadata m).1 = trimmedField m ImageAspectRatioMetadataKey ∧
    (ImageConfigFromMetadata m).2.1 = trimmedField m ImageSizeMetadataKey ∧
    ((ImageConfigFromMetadata m).2.2 = true ↔
      ((ImageConfigFromMetadata m).1 ≠ [] ∨ (ImageConfigFromMetadata m).2.1 ≠ [])) ∧
    (mapGet (mapEntries m) ImageAspectRatioMetadataKey = none →
      mapGet (mapEntries m) ImageSizeMetadataKey = none →
      ImageConfigFromMetadata m = ([], [], false)) ∧
    ImageConfigFromMetadata none = ([], [], false) ∧
    ImageConfigFromMetadata (some []) = ([], [], false) := by
  refine ⟨?_, ?_, ?_, ?_, by decide, by decide⟩
  · rw [ImageConfigFromMetadata_eq]
  · rw [ImageConfigFromMetadata_eq]
  · rw [ImageConfigFromMetadata_eq]
    simp
  · intro h1 h2
    rw [ImageConfigFromMetadata_eq]
    simp [trimmedField, h1, h2]

/-- C9 (witness): a map holding only "other_key", and a map holding a padded
ratio string and a non-string size. -/
theorem C9_config_from_metadata_witness :
    ImageConfigFromMetadata (some [("other_key".toList, Value.str "value".toList)])
      = ([], [], false) ∧
    (ImageConfigFromMetadata (some [(ImageAspectRatioMetadataKey, Value.str " 16:9\t".toList),
        (ImageSizeMetadataKey, Value.other 4)])).1 = "16:9".toList :=
  ⟨(C9_config_from_metadata _).2.2.2.1 (by decide) (by decide),
    (C9_config_from_metadata _).1.trans (by decide)⟩

/-! ## C10 -/

/-- C10: for every set-at-path primitive, document and base path,
`applyImageConfig` returns the input document itself whenever the metadata is
nil, is empty, or holds no string that is non-blank after trimming under
either image_aspect_ratio or image_size. -/
theorem C10_apply_identity (setBytes : SetBytes) (m : Metadata) (rawJSON : Bytes)
    (basePath : Str)
    (h : m = none ∨ m = some [] ∨
      ∀ key ∈ [ImageAspectRatioMetadataKey, ImageSizeMetadataKey], ∀ v,
        mapGet (mapEntries m) key = some (Value.str v) → stringsTrimSpace v = []) :
    applyImageConfig setBytes m rawJSON basePath = rawJSON := by
  have hfield : ∀ key ∈ [ImageAspectRatioMetadataKey, ImageSizeMetadataKey],
      trimmedField m key = [] := by
    intro key hkey
    rcases h with rfl | rfl | h
    · rfl
    · rfl
    · unfold trimmedField
      split
      · rename_i v hv
        rw [h key hkey v hv]
        simp
      · rfl
  have hfound : (ImageConfigFromMetadata m).2.2 = false := by
    rw [ImageConfigFromMetadata_eq]
    simp [hfield ImageAspectRatioMetadataKey (by simp), hfield ImageSizeMetadataKey (by simp)]
  unfold applyImageConfig
  split_ifs
  · rfl
  · simp [hfound]

/-- C10 (witness): a setter that would wipe the document is given a map with
a blank ratio and a non-string size; the document comes back as it was. -/
theorem C10_apply_identity_witness :
    applyImageConfig (fun _ _ _ => (([] : Bytes), true))
      (some [(ImageAspectRatioMetadataKey, Value.str "  ".toList),
        (ImageSizeMetadataKey, Value.other 4)])
      [123, 125] "generationConfig.imageConfig".toList = [123, 125] :=
  C10_apply_identity _ _ _ _ (Or.inr (Or.inr (by
    intro key hkey v hv
    simp only [List.mem_cons, List.mem_singleton, List.not_mem_nil, or_false] at hkey
    rcases hkey with rfl | rfl
    · have e : mapGet (mapEntries (some [(ImageAspectRatioMetadataKey, Value.str "  ".toList),
          (ImageSizeMetadataKey, Value.other 4)])) ImageAspectRatioMetadataKey
          = some (Value.str "  ".toList) := by decide
      rw [e] at hv
      cases hv
      decide
    · have e : mapGet (mapEntries (some [(ImageAspectRatioMetadataKey, Value.str "  ".toList),
          (ImageSizeMetadataKey, Value.other 4)])) ImageSizeMetadataKey
          = some (Value.other 4) := by decide
      rw [e] at hv
      cases hv)))

/-! ## C13 -/

theorem startsWithMore_append (p rest : Str) (h : rest ≠ []) :
    startsWithMore p (p ++ rest) = true := by
  have h1 : p.isPrefixOf (p ++ rest) = true := by
    rw [List.isPrefixOf_iff_prefix]; exact ⟨rest, rfl⟩
  have h2 : 0 < rest.length := List.length_pos.mpr h
  simp [startsWithMore, h1, h2]

theorem startsWithMore_elim {p s : Str} (h : startsWithMore p s = true) :
    ∃ rest, rest ≠ [] ∧ s = p ++ rest := by
  simp only [startsWithMore, Bool.and_eq_true, decide_eq_true_eq] at h
  obtain ⟨h1, h2⟩ := h
  rw [List.isPrefixOf_iff_prefix] at h1
  obtain ⟨rest, rfl⟩ := h1
  refine ⟨rest, ?_, rfl⟩
  rintro rfl
  simp at h2

theorem previewDash_eq : "gemini-3-pro-image-preview-".toList = previewBase ++ ['-'] := by decide

theorem bareDash_eq : "gemini-3-pro-image-".toList = bareBase ++ ['-'] := by decide

/-- The base captured by the pattern is the preview form exactly when the
identifier starts with the preview form, a dash and at least one character. -/
theorem findStringSubmatch_base {m base sfx : Str}
    (h : findStringSubmatch m = some (base, sfx)) :
    base = if startsWithMore "gemini-3-pro-image-preview-".toList m then previewBase
      else bareBase := by
  unfold findStringSubmatch at h
  cases hm : matchWithBase previewBase m with
  | some r =>
    rw [hm] at h
    simp only [Option.some.injEq] at h
    subst h
    obtain ⟨h1, h2, h3, -⟩ := matchWithBase_some hm
    have e : m = "gemini-3-pro-image-preview-".toList ++ sfx := by
      rw [h2, previewDash_eq]; simp
    rw [e, startsWithMore_append _ _ h3]
    simpa using h1
  | none =>
    rw [hm] at h
    simp only at h
    obtain ⟨h1, h2, -, h4⟩ := matchWithBase_some h
    have hno : startsWithMore "gemini-3-pro-image-preview-".toList m = false := by
      cases hs : startsWithMore "gemini-3-pro-image-preview-".toList m with
      | false => rfl
      | true =>
        exfalso
        obtain ⟨rest, hrest, hm2⟩ := startsWithMore_elim hs
        have e1 : "gemini-3-pro-image-preview-".toList = bareBase ++ '-' :: "preview-".toList := by
          decide
        rw [h2, e1, List.append_assoc] at hm2
        have hsfx : sfx = "preview-".toList ++ rest := by
          have := List.append_cancel_left hm2
          simpa using this
        have hnl : '\n' ∉ rest := fun hr => h4 (hsfx ▸ List.mem_append_right _ hr)
        have hm3 : m = previewBase ++ '-' :: rest := by
          rw [h2, hsfx, previewBase_eq]
          have e2 : "-preview".toList ++ '-' :: rest = '-' :: ("preview-".toList ++ rest) := by
            have e3 : "-preview".toList = '-' :: "preview".toList := by decide
            have e4 : "preview-".toList = "preview".toList ++ ['-'] := by decide
            rw [e3, e4]; simp
          rw [List.append_assoc, e2]
        rw [hm3, matchWithBase_append previewBase rest hrest hnl] at hm
        cases hm
    rw [hno]
    simpa using h1

/-- C13: whenever `NormalizeImageModel` extracts at least one field (the
metadata is not nil), the base name returned is the base variant the input
used: "gemini-3-pro-image-preview" when the identifier starts with
"gemini-3-pro-image-preview-" followed by at least one character, and
"gemini-3-pro-image" otherwise. -/
theorem C13_base_variant_kept (s : Str) (h : (NormalizeImageModel s).2 ≠ none) :
    (NormalizeImageModel s).1 =
      if startsWithMore "gemini-3-pro-image-preview-".toList s
      then "gemini-3-pro-image-preview".toList else "gemini-3-pro-image".toList := by
  rcases NormalizeImageModel_cases s with h0 | ⟨base, sfx, hf, -, hN⟩
  · rw [h0] at h
    exact absurd rfl h
  · rw [hN]
    exact findStringSubmatch_base hf

/-- C13 (witness): a bare and a preview identifier with a size token. -/
theorem C13_base_variant_kept_witness :
    (NormalizeImageModel "gemini-3-pro-image-4k".toList).1 = "gemini-3-pro-image".toList ∧
    (NormalizeImageModel "gemini-3-pro-image-preview-4k".toList).1
      = "gemini-3-pro-image-preview".toList :=
  ⟨(C13_base_variant_kept "gemini-3-pro-image-4k".toList (by decide)).trans (by decide),
   (C13_base_variant_kept "gemini-3-pro-image-preview-4k".toList (by decide)).trans (by decide)⟩

/-! ## C14 -/

/-- C14 (counterexample): "models/gemini-3-pro-image-4k" contains the marker
and is neither canonical base form, yet it does not match the pattern:
`parseImageSuffix` takes its no-match fallback. -/
theorem C14_fallback_reached :
    stringsContains "models/gemini-3-pro-image-4k".toList "gemini-3-pro-image".toList = true ∧
    "models/gemini-3-pro-image-4k".toList ≠ "gemini-3-pro-image".toList ∧
    "models/gemini-3-pro-image-4k".toList ≠ "gemini-3-pro-image-preview".toList ∧
    findStringSubmatch "models/gemini-3-pro-image-4k".toList = none ∧
    parseImageSuffix "models/gemini-3-pro-image-4k".toList
      = ⟨"models/gemini-3-pro-image-4k".toList, [], []⟩ := by
  decide

/-- C14 (amended): an identifier matches the pattern
gemini-3-pro-image(-preview)?-<non-empty suffix> if and only if it starts with
"gemini-3-pro-image-" followed by at least one character and holds no line
break after that prefix; every other identifier takes the no-match fallback of
`parseImageSuffix`, which returns it with both fields empty, and
`NormalizeImageModel` returns it unchanged with nil metadata. -/
theorem C14_match_iff_family_start (s : Str) :
    ((findStringSubmatch s).isSome = true ↔
      ∃ sfx, sfx ≠ [] ∧ '\n' ∉ sfx ∧ s = "gemini-3-pro-image-".toList ++ sfx) ∧
    (findStringSubmatch s = none →
      parseImageSuffix s = ⟨s, [], []⟩ ∧ NormalizeImageModel s = (s, none)) := by
  constructor
  · constructor
    · intro h
      cases hf : findStringSubmatch s with
      | none => rw [hf] at h; cases h
      | some r =>
        obtain ⟨base, sfx⟩ := r
        obtain ⟨hb, hs, hne, hnl⟩ := findStringSubmatch_some hf
        rcases hb with rfl | rfl
        · refine ⟨"preview-".toList ++ sfx, by simp, ?_, ?_⟩
          · intro hm
            rcases List.mem_append.mp hm with h1 | h1
            · revert h1; decide
            · exact hnl h1
          · rw [hs, previewBase_eq, bareDash_eq]
            have e4 : "preview-".toList = "preview".toList ++ ['-'] := by decide
            have e3 : "-preview".toList = '-' :: "preview".toList := by decide
            rw [e3, e4]; simp
        · exact ⟨sfx, hne, hnl, by rw [hs, bareDash_eq]; simp⟩
    · rintro ⟨sfx, hne, hnl, rfl⟩
      have e : "gemini-3-pro-image-".toList ++ sfx = bareBase ++ '-' :: sfx := by
        rw [bareDash_eq]; simp
      rw [e]
      unfold findStringSubmatch
      cases matchWithBase previewBase (bareBase ++ '-' :: sfx) with
      | some r => rfl
      | none =>
        simp only
        rw [matchWithBase_append bareBase sfx hne hnl]
        rfl
  · intro hf
    exact ⟨by simp only [parseImageSuffix, hf], NormalizeImageModel_of_no_match hf⟩

/-! ## C19 -/

/-- C19: every identifier that does not start with "gemini-3-pro-image-" is
returned unchanged by `NormalizeImageModel`, with nil metadata, also when it
contains the marker followed by valid tokens. -/
theorem C19_only_prefixed_identifiers (s : Str)
    (h : "gemini-3-pro-image-".toList.isPrefixOf s = false) :
    NormalizeImageModel s = (s, none) := by
  rcases NormalizeImageModel_cases s with h0 | ⟨base, sfx, hf, -, -⟩
  · exact h0
  · exfalso
    have hpre : "gemini-3-pro-image-".toList.isPrefixOf s = true := by
      obtain ⟨hb, hs, -, -⟩ := findStringSubmatch_some hf
      rw [List.isPrefixOf_iff_prefix, hs, bareDash_eq]
      rcases hb with rfl | rfl
      · rw [previewBase_eq]
        exact ⟨"preview".toList ++ '-' :: sfx, by
          have e3 : "-preview".toList = '-' :: "preview".toList := by decide
          rw [e3]; simp⟩
      · exact ⟨sfx, by simp⟩
    rw [h] at hpre
    cases hpre

/-- C19 (witness): "models/gemini-3-pro-image-4k". -/
theorem C19_only_prefixed_identifiers_witness :
    NormalizeImageModel "models/gemini-3-pro-image-4k".toList
      = ("models/gemini-3-pro-image-4k".toList, none) :=
  C19_only_prefixed_identifiers "models/gemini-3-pro-image-4k".toList (by decide)

/-- C14 (witness): the amended statement at "models/gemini-3-pro-image-4k",
which takes the fallback, and at "gemini-3-pro-image-4k", which matches. -/
theorem C14_match_iff_family_start_witness :
    NormalizeImageModel "models/gemini-3-pro-image-4k".toList
      = ("models/gemini-3-pro-image-4k".toList, none) ∧
    (findStringSubmatch "gemini-3-pro-image-4k".toList).isSome = true :=
  ⟨((C14_match_iff_family_start "models/gemini-3-pro-image-4k".toList).2 (by decide)).2,
   (C14_match_iff_family_start "gemini-3-pro-image-4k".toList).1.mpr
     ⟨"4k".toList, by decide, by decide, by decide⟩⟩

/-! ## C15 -/

/-- C15: last match wins.  For every two size tokens z1, z2,
"gemini-3-pro-image-<z1>-<z2>" records image_size as the canonical form of z2;
for every two ratios r1, r2 in the x convention,
"gemini-3-pro-image-<r1>-<r2>" records image_aspect_ratio as the canonical
form of r2. -/
theorem C15_last_match_wins :
    (∀ z1 ∈ sizeForms, ∀ z2 ∈ sizeForms,
      mapGet (mapEntries (NormalizeImageModel
          ("gemini-3-pro-image-".toList ++ z1.1 ++ '-' :: z2.1)).2) ImageSizeMetadataKey
        = some (Value.str z2.2)) ∧
    (∀ r1 ∈ ratioForms, ∀ r2 ∈ ratioForms,
      mapGet (mapEntries (NormalizeImageModel
          ("gemini-3-pro-image-".toList ++ r1.2.1 ++ '-' :: r2.2.1)).2)
          ImageAspectRatioMetadataKey
        = some (Value.str r2.2.2)) := by
  decide

/-- C15 (witness): "1k-4k" records 4K and "16x9-4x3" records 4:3. -/
theorem C15_last_match_wins_witness :
    mapGet (mapEntries (NormalizeImageModel
        ("gemini-3-pro-image-".toList ++ "1k".toList ++ '-' :: "4k".toList)).2)
      ImageSizeMetadataKey = some (Value.str "4K".toList) ∧
    mapGet (mapEntries (NormalizeImageModel
        ("gemini-3-pro-image-".toList ++ "16x9".toList ++ '-' :: "4x3".toList)).2)
      ImageAspectRatioMetadataKey = some (Value.str "4:3".toList) :=
  ⟨C15_last_match_wins.1 ("1k".toList, "1K".toList) (by decide)
      ("4k".toList, "4K".toList) (by decide),
   C15_last_match_wins.2 ("16-9".toList, "16x9".toList, "16:9".toList) (by decide)
      ("4-3".toList, "4x3".toList, "4:3".toList) (by decide)⟩

/-! ## C16 -/

/-- C16: a dash-ratio match consumes both of its fragments.  For every two
dash ratios "a-b" and "b-c" of the enumeration, the suffix "a-b-c" records
image_aspect_ratio "a:b"; when the two ratios differ this is not "b:c". -/
theorem C16_leftmost_dash_pair :
    ∀ r1 ∈ ratioForms, ∀ r2 ∈ ratioForms, afterDash r1.1 = beforeDash r2.1 →
      mapGet (mapEntries (NormalizeImageModel
          ("gemini-3-pro-image-".toList ++ r1.1 ++ '-' :: afterDash r2.1)).2)
          ImageAspectRatioMetadataKey
        = some (Value.str r1.2.2) ∧
      (r1 ≠ r2 →
        mapGet (mapEntries (NormalizeImageModel
            ("gemini-3-pro-image-".toList ++ r1.1 ++ '-' :: afterDash r2.1)).2)
            ImageAspectRatioMetadataKey
          ≠ some (Value.str r2.2.2)) := by
  decide

/-- C16 (witness): the suffixes "16-9-16", "3-4-3" and "4-3-2". -/
theorem C16_leftmost_dash_pair_witness :
    mapGet (mapEntries (NormalizeImageModel "gemini-3-pro-image-16-9-16".toList).2)
      ImageAspectRatioMetadataKey = some (Value.str "16:9".toList) ∧
    mapGet (mapEntries (NormalizeImageModel "gemini-3-pro-image-3-4-3".toList).2)
      ImageAspectRatioMetadataKey = some (Value.str "3:4".toList) ∧
    mapGet (mapEntries (NormalizeImageModel "gemini-3-pro-image-4-3-2".toList).2)
      ImageAspectRatioMetadataKey = some (Value.str "4:3".toList) :=
  ⟨(C16_leftmost_dash_pair ("16-9".toList, "16x9".toList, "16:9".toList) (by decide)
      ("9-16".toList, "9x16".toList, "9:16".toList) (by decide) (by decide)).1,
   (C16_leftmost_dash_pair ("3-4".toList, "3x4".toList, "3:4".toList) (by decide)
      ("4-3".toList, "4x3".toList, "4:3".toList) (by decide) (by decide)).1,
   (C16_leftmost_dash_pair ("4-3".toList, "4x3".toList, "4:3".toList) (by decide)
      ("3-2".toList, "3x2".toList, "3:2".toList) (by decide) (by decide)).1⟩

/-! ## C18 -/

theorem buildMetadata_get (s ar sz : Str) :
    mapGet (buildMetadata s ar sz) ImageAspectRatioMetadataKey = optField ar ∧
    mapGet (buildMetadata s ar sz) ImageSizeMetadataKey = optField sz := by
  have h1 : ImageAspectRatioMetadataKey ≠ ImageOriginalModelMetadataKey := by decide
  have h2 : ImageSizeMetadataKey ≠ ImageOriginalModelMetadataKey := by decide
  have h3 : ImageSizeMetadataKey ≠ ImageAspectRatioMetadataKey := by decide
  rw [buildMetadata_eq]
  by_cases ha : ar = [] <;> by_cases hz : sz = [] <;>
    simp [mapGet, optField, ha, hz, h1, h2, h3, Ne.symm h3]

theorem canonical_values_trimmed :
    (∀ v ∈ ratioValues, stringsTrimSpace v = v) ∧ (∀ v ∈ sizeValues, stringsTrimSpace v = v) := by
  decide

theorem trimmedField_of_get {m : Metadata} {key v : Str}
    (h : mapGet (mapEntries m) key = optField v) (hv : stringsTrimSpace v = v) :
    trimmedField m key = v ∧ storedString m key = v := by
  unfold trimmedField storedString
  rw [h]
  by_cases hn : v = []
  · simp [optField, hn]
  · simp [optField, hn, hv]

/-- C18: for every input, with m the metadata `NormalizeImageModel` returns,
`ImageConfigFromMetadata` gives found = true exactly when m is not nil, and
then returns the two strings stored in m under image_aspect_ratio and
image_size ("" for an absent key) as they are. -/
theorem C18_parser_feeds_reader (s : Str) :
    ((ImageConfigFromMetadata (NormalizeImageModel s).2).2.2 = true ↔
      (NormalizeImageModel s).2 ≠ none) ∧
    ((NormalizeImageModel s).2 ≠ none →
      (ImageConfigFromMetadata (NormalizeImageModel s).2).1
        = storedString (NormalizeImageModel s).2 ImageAspectRatioMetadataKey ∧
      (ImageConfigFromMetadata (NormalizeImageModel s).2).2.1
        = storedString (NormalizeImageModel s).2 ImageSizeMetadataKey) := by
  rcases NormalizeImageModel_cases s with h0 | ⟨base, sfx, -, hst, hN⟩
  · rw [h0]
    refine ⟨⟨fun h => ?_, fun h => absurd rfl h⟩, fun h => absurd rfl h⟩
    have hf : (ImageConfigFromMetadata none).2.2 = false := by decide
    change (ImageConfigFromMetadata none).2.2 = true at h
    rw [hf] at h
    cases h
  · rw [hN]
    have hv := scanParts_values (stringsSplit '-' sfx) ⟨[], []⟩ (Or.inl rfl) (Or.inl rfl)
    change ((scanSuffix sfx).aspectRatio = [] ∨ (scanSuffix sfx).aspectRatio ∈ ratioValues) ∧
      ((scanSuffix sfx).imageSize = [] ∨ (scanSuffix sfx).imageSize ∈ sizeValues) at hv
    have hta : stringsTrimSpace (scanSuffix sfx).aspectRatio = (scanSuffix sfx).aspectRatio := by
      rcases hv.1 with h | h
      · rw [h]; rfl
      · exact canonical_values_trimmed.1 _ h
    have htz : stringsTrimSpace (scanSuffix sfx).imageSize = (scanSuffix sfx).imageSize := by
      rcases hv.2 with h | h
      · rw [h]; rfl
      · exact canonical_values_trimmed.2 _ h
    have hg := buildMetadata_get s (scanSuffix sfx).aspectRatio (scanSuffix sfx).imageSize
    have ha := trimmedField_of_get
      (m := some (buildMetadata s (scanSuffix sfx).aspectRatio (scanSuffix sfx).imageSize))
      hg.1 hta
    have hz := trimmedField_of_get
      (m := some (buildMetadata s (scanSuffix sfx).aspectRatio (scanSuffix sfx).imageSize))
      hg.2 htz
    rw [ImageConfigFromMetadata_eq]
    refine ⟨?_, fun _ => ⟨ha.1.trans ha.2.symm, hz.1.trans hz.2.symm⟩⟩
    constructor
    · intro _ h
      cases h
    · intro _
      apply decide_eq_true
      rw [ha.1, hz.1]
      by_cases hae : (scanSuffix sfx).aspectRatio = []
      · exact Or.inr (fun h => hst ⟨hae, h⟩)
      · exact Or.inl hae

/-- C18 (witness): the input "gemini-3-pro-image-4k-16x9". -/
theorem C18_parser_feeds_reader_witness :
    ImageConfigFromMetadata (NormalizeImageModel "gemini-3-pro-image-4k-16x9".toList).2
      = ("16:9".toList, "4K".toList, true) := by
  have h := C18_parser_feeds_reader "gemini-3-pro-image-4k-16x9".toList
  have hne : (NormalizeImageModel "gemini-3-pro-image-4k-16x9".toList).2 ≠ none := by decide
  have h1 := (h.2 hne).1
  have h2 := (h.2 hne).2
  have h3 := h.1.mpr hne
  have e1 : storedString (NormalizeImageModel "gemini-3-pro-image-4k-16x9".toList).2
      ImageAspectRatioMetadataKey = "16:9".toList := by decide
  have e2 : storedString (NormalizeImageModel "gemini-3-pro-image-4k-16x9".toList).2
      ImageSizeMetadataKey = "4K".toList := by decide
  rw [e1] at h1
  rw [e2] at h2
  exact Prod.ext h1 (Prod.ext h2 h3)

/-! ## C20 and the shape of `applyImageConfig` -/

theorem applyImageConfig_eq {D : Type} (setBytes : D → Str → Str → D × Bool) (m : Metadata)
    (doc : D) (basePath : Str) :
    applyImageConfig setBytes m doc basePath =
      writeFields setBytes doc basePath (trimmedField m ImageAspectRatioMetadataKey)
        (trimmedField m ImageSizeMetadataKey) := by
  unfold applyImageConfig writeFields
  by_cases h0 : m = none ∨ mapLen m = 0
  · have hl : mapLen m = 0 := by
      rcases h0 with rfl | h
      · rfl
      · exact h
    simp [h0, trimmedField_of_len_zero hl]
  · rw [if_neg h0, ImageConfigFromMetadata_eq]
    by_cases ha : trimmedField m ImageAspectRatioMetadataKey = [] <;>
      by_cases hz : trimmedField m ImageSizeMetadataKey = [] <;>
      simp [ha, hz]

theorem trimmedField_congr {m1 m2 : Metadata} {key : Str}
    (h : mapGet (mapEntries m1) key = mapGet (mapEntries m2) key) :
    trimmedField m1 key = trimmedField m2 key := by
  unfold trimmedField
  rw [h]

/-- C20: for every two model arguments and every two metadata maps that agree
on image_aspect_ratio and image_size, `ApplyImageConfigFromMetadata` returns
the same bytes on the same document, and so does
`ApplyImageConfigFromMetadataCLI`; the former writes the two fields under
"generationConfig.imageConfig", the latter under
"request.generationConfig.imageConfig". -/
theorem C20_depends_on_two_keys (setBytes : SetBytes) (model1 model2 : Str)
    (m1 m2 : Metadata) (rawJSON : Bytes)
    (hA : mapGet (mapEntries m1) ImageAspectRatioMetadataKey
      = mapGet (mapEntries m2) ImageAspectRatioMetadataKey)
    (hZ : mapGet (mapEntries m1) ImageSizeMetadataKey
      = mapGet (mapEntries m2) ImageSizeMetadataKey) :
    ApplyImageConfigFromMetadata setBytes model1 m1 rawJSON
      = ApplyImageConfigFromMetadata setBytes model2 m2 rawJSON ∧
    ApplyImageConfigFromMetadataCLI setBytes model1 m1 rawJSON
      = ApplyImageConfigFromMetadataCLI setBytes model2 m2 rawJSON ∧
    ApplyImageConfigFromMetadata setBytes model1 m1 rawJSON
      = writeFields setBytes rawJSON "generationConfig.imageConfig".toList
          (trimmedField m1 ImageAspectRatioMetadataKey) (trimmedField m1 ImageSizeMetadataKey) ∧
    ApplyImageConfigFromMetadataCLI setBytes model1 m1 rawJSON
      = writeFields setBytes rawJSON "request.generationConfig.imageConfig".toList
          (trimmedField m1 ImageAspectRatioMetadataKey) (trimmedField m1 ImageSizeMetadataKey) := by
  simp only [ApplyImageConfigFromMetadata, ApplyImageConfigFromMetadataCLI, applyImageConfig_eq,
    trimmedField_congr hA, trimmedField_congr hZ, and_self]

/-- C20 (witness): two maps that agree on the two keys and differ in
image_original_model and in another key, with two model arguments and a setter
that appends the path and the value to the document. -/
theorem C20_depends_on_two_keys_witness :
    ApplyImageConfigFromMetadata
        (fun d p v => (d ++ (p ++ v).map (fun c => c.toNat.toUInt8), false))
        "a".toList
        (some [(ImageOriginalModelMetadataKey, Value.str "gemini-3-pro-image-4k".toList),
          (ImageSizeMetadataKey, Value.str "4K".toList)])
        ([123, 125] : Bytes)
      = ApplyImageConfigFromMetadata
        (fun d p v => (d ++ (p ++ v).map (fun c => c.toNat.toUInt8), false))
        "b".toList
        (some [(ImageSizeMetadataKey, Value.str "4K".toList),
          ("other".toList, Value.other 1)])
        ([123, 125] : Bytes) :=
  (C20_depends_on_two_keys _ "a".toList "b".toList _ _ _ (by decide) (by decide)).1

/-! ## C12 -/

theorem mapGet_mapSet_same {α : Type} (m : List (Str × α)) (k : Str) (v : α) :
    mapGet (mapSet m k v) k = some v := by
  induction m with
  | nil => simp only [mapSet, mapGet, if_true]
  | cons kv m ih =>
    obtain ⟨k', w⟩ := kv
    by_cases h : k = k'
    · simp only [mapSet, if_pos h, mapGet]
    · simp only [mapSet, if_neg h, mapGet, ih]

theorem mapGet_mapSet_other {α : Type} (m : List (Str × α)) (k k2 : Str) (v : α)
    (hk : k2 ≠ k) : mapGet (mapSet m k v) k2 = mapGet m k2 := by
  induction m with
  | nil => simp only [mapSet, mapGet, if_neg hk]
  | cons kv m ih =>
    obtain ⟨k', w⟩ := kv
    by_cases h : k = k'
    · subst h
      simp only [mapSet, if_true, mapGet, if_neg hk]
    · by_cases h2 : k2 = k'
      · simp only [mapSet, if_neg h, mapGet, if_pos h2]
      · simp only [mapSet, if_neg h, mapGet, if_neg h2, ih]

theorem fields_obj (fs : List (Str × Json)) : (Json.obj fs).fields = fs := rfl

theorem setPath_cons (k : Str) (ks : List Str) (j : Json) (v : Str) :
    setPath (k :: ks) j v
      = Json.obj (mapSet j.fields k (setPath ks ((mapGet j.fields k).getD (Json.obj [])) v)) :=
  rfl

theorem getPath_obj_cons (k : Str) (ks : List Str) (fs : List (Str × Json)) (c : Json)
    (h : mapGet fs k = some c) : getPath (k :: ks) (Json.obj fs) = getPath ks c := by
  simp only [getPath, fields_obj, h]

theorem getPath_cons_none (k : Str) (ks : List Str) (j : Json)
    (h : mapGet j.fields k = none) : getPath (k :: ks) j = none := by
  simp only [getPath, h]

theorem getPath_cons_some (k : Str) (ks : List Str) (j c : Json)
    (h : mapGet j.fields k = some c) : getPath (k :: ks) j = getPath ks c := by
  simp only [getPath, h]

theorem getPath_setPath_same (p : List Str) (j : Json) (v : Str) :
    getPath p (setPath p j v) = some (Json.str v) := by
  induction p generalizing j with
  | nil => rfl
  | cons k ks ih =>
    rw [setPath_cons, getPath_obj_cons k ks _ _ (mapGet_mapSet_same _ _ _)]
    exact ih _

theorem getPath_empty_obj (k : Str) (ks : List Str) : getPath (k :: ks) (Json.obj []) = none :=
  getPath_cons_none k ks _ rfl

theorem getPath_setPath_sibling (segs : List Str) (k1 k2 : Str) (j : Json) (v : Str)
    (h : k1 ≠ k2) :
    getPath (segs ++ [k1]) (setPath (segs ++ [k2]) j v) = getPath (segs ++ [k1]) j := by
  induction segs generalizing j with
  | nil =>
    show getPath [k1] (setPath [k2] j v) = getPath [k1] j
    rw [setPath_cons]
    cases hg : mapGet j.fields k1 with
    | none =>
      rw [getPath_cons_none k1 [] j hg]
      exact getPath_cons_none k1 [] _ (by rw [fields_obj, mapGet_mapSet_other _ _ _ _ h, hg])
    | some c =>
      rw [getPath_cons_some k1 [] j c hg]
      exact getPath_cons_some k1 [] _ c (by rw [fields_obj, mapGet_mapSet_other _ _ _ _ h, hg])
  | cons s ss ih =>
    show getPath (s :: (ss ++ [k1])) (setPath (s :: (ss ++ [k2])) j v)
      = getPath (s :: (ss ++ [k1])) j
    rw [setPath_cons, getPath_obj_cons s _ _ _ (mapGet_mapSet_same _ _ _), ih]
    cases hg : mapGet j.fields s with
    | some c =>
      rw [getPath_cons_some s _ j c hg]
      rfl
    | none =>
      rw [getPath_cons_none s _ j hg]
      show getPath (ss ++ [k1]) (Json.obj []) = none
      cases ss with
      | nil => exact getPath_empty_obj _ _
      | cons t ts => exact getPath_empty_obj _ _

theorem fields_setPath_other (k0 : Str) (t : List Str) (j : Json) (v k : Str) (hk : k ≠ k0) :
    mapGet (setPath (k0 :: t) j v).fields k = mapGet j.fields k := by
  rw [setPath_cons, fields_obj, mapGet_mapSet_other _ _ _ _ hk]

theorem stringsSplit_ne_nil (sep : Char) (s : Str) : stringsSplit sep s ≠ [] := by
  cases s with
  | nil => simp [stringsSplit]
  | cons c s =>
    simp only [stringsSplit]
    split_ifs
    · simp
    · split <;> simp

theorem stringsSplit_cons_ne (sep c : Char) (s p : Str) (ps : List Str) (hc : c ≠ sep)
    (hs : stringsSplit sep s = p :: ps) : stringsSplit sep (c :: s) = (c :: p) :: ps := by
  simp only [stringsSplit, if_neg hc, hs]

theorem stringsSplit_append_sep (sep : Char) (a b : Str) :
    stringsSplit sep (a ++ sep :: b) = stringsSplit sep a ++ stringsSplit sep b := by
  induction a with
  | nil => simp [stringsSplit]
  | cons c a ih =>
    by_cases hc : c = sep
    · simp [stringsSplit, hc, ih]
    · cases hs : stringsSplit sep a with
      | nil => exact absurd hs (stringsSplit_ne_nil sep a)
      | cons p ps =>
        have h1 : stringsSplit sep (a ++ sep :: b) = p :: (ps ++ stringsSplit sep b) := by
          rw [ih, hs]
          rfl
        rw [List.cons_append, stringsSplit_cons_ne sep c _ p _ hc h1,
          stringsSplit_cons_ne sep c _ p _ hc hs]
        rfl

theorem aspectRatio_path (basePath : Str) :
    stringsSplit '.' (basePath ++ ".aspectRatio".toList)
      = stringsSplit '.' basePath ++ ["aspectRatio".toList] := by
  have e : ".aspectRatio".toList = '.' :: "aspectRatio".toList := by decide
  have e2 : stringsSplit '.' "aspectRatio".toList = ["aspectRatio".toList] := by decide
  rw [e, stringsSplit_append_sep, e2]

theorem imageSize_path (basePath : Str) :
    stringsSplit '.' (basePath ++ ".imageSize".toList)
      = stringsSplit '.' basePath ++ ["imageSize".toList] := by
  have e : ".imageSize".toList = '.' :: "imageSize".toList := by decide
  have e2 : stringsSplit '.' "imageSize".toList = ["imageSize".toList] := by decide
  rw [e, stringsSplit_append_sep, e2]

theorem trimmedField_of_string {m : Metadata} {key a : Str}
    (h : mapGet (mapEntries m) key = some (Value.str a)) (hb : stringsTrimSpace a ≠ []) :
    trimmedField m key = stringsTrimSpace a := by
  unfold trimmedField
  rw [h]
  simp [hb]

/-! ## C11 -/

/-- C11 (counterexample): with the string " 16:9" under image_aspect_ratio,
which is non-blank, the field written at
"generationConfig.imageConfig.aspectRatio" reads back as "16:9", the trimmed
string, not as the string the metadata holds. -/
theorem C11_written_value_is_trimmed :
    stringsTrimSpace " 16:9".toList ≠ [] ∧
    getPath (stringsSplit '.' "generationConfig.imageConfig.aspectRatio".toList)
        (applyImageConfig jsonSetBytes
          (some [(ImageAspectRatioMetadataKey, Value.str " 16:9".toList),
            (ImageSizeMetadataKey, Value.str "4K".toList)])
          (Json.obj []) "generationConfig.imageConfig".toList)
      = some (Json.str "16:9".toList) ∧
    getPath (stringsSplit '.' "generationConfig.imageConfig.aspectRatio".toList)
        (applyImageConfig jsonSetBytes
          (some [(ImageAspectRatioMetadataKey, Value.str " 16:9".toList),
            (ImageSizeMetadataKey, Value.str "4K".toList)])
          (Json.obj []) "generationConfig.imageConfig".toList)
      ≠ some (Json.str " 16:9".toList) := by
  have e : getPath (stringsSplit '.' "generationConfig.imageConfig.aspectRatio".toList)
        (applyImageConfig jsonSetBytes
          (some [(ImageAspectRatioMetadataKey, Value.str " 16:9".toList),
            (ImageSizeMetadataKey, Value.str "4K".toList)])
          (Json.obj []) "generationConfig.imageConfig".toList)
      = some (Json.str "16:9".toList) := rfl
  refine ⟨by decide, e, ?_⟩
  rw [e]
  intro h
  have h2 := Json.str.inj (Option.some.inj h)
  revert h2
  decide

/-- C11 (amended): for every document, base path and metadata holding
non-blank strings a under image_aspect_ratio and z under image_size,
`applyImageConfig` returns the document obtained by first setting
<basePath>.aspectRatio to the whitespace-trimmed a and then
<basePath>.imageSize to the whitespace-trimmed z, for any set-at-path
primitive; with the primitive a correct dotted-path setter on a JSON document,
both fields read back as those trimmed values and every top-level field other
than the first segment of the base path is as in the input document; metadata
{16:9, 4K}, document {} and base path "generationConfig.imageConfig" give
{"generationConfig":{"imageConfig":{"aspectRatio":"16:9","imageSize":"4K"}}}. -/
theorem C11_both_fields_written (m : Metadata) (doc : Json) (basePath a z : Str)
    (ha : mapGet (mapEntries m) ImageAspectRatioMetadataKey = some (Value.str a))
    (hz : mapGet (mapEntries m) ImageSizeMetadataKey = some (Value.str z))
    (hab : stringsTrimSpace a ≠ []) (hzb : stringsTrimSpace z ≠ []) :
    (∀ (setBytes : SetBytes) (rawJSON : Bytes),
      applyImageConfig setBytes m rawJSON basePath
        = (setBytes (setBytes rawJSON (basePath ++ ".aspectRatio".toList)
              (stringsTrimSpace a)).1
            (basePath ++ ".imageSize".toList) (stringsTrimSpace z)).1) ∧
    applyImageConfig jsonSetBytes m doc basePath
      = (jsonSetBytes (jsonSetBytes doc (basePath ++ ".aspectRatio".toList)
            (stringsTrimSpace a)).1
          (basePath ++ ".imageSize".toList) (stringsTrimSpace z)).1 ∧
    getPath (stringsSplit '.' (basePath ++ ".aspectRatio".toList))
        (applyImageConfig jsonSetBytes m doc basePath)
      = some (Json.str (stringsTrimSpace a)) ∧
    getPath (stringsSplit '.' (basePath ++ ".imageSize".toList))
        (applyImageConfig jsonSetBytes m doc basePath)
      = some (Json.str (stringsTrimSpace z)) ∧
    (∀ k, (stringsSplit '.' basePath).head? ≠ some k →
      mapGet (applyImageConfig jsonSetBytes m doc basePath).fields k = mapGet doc.fields k) ∧
    applyImageConfig jsonSetBytes
        (some [(ImageAspectRatioMetadataKey, Value.str "16:9".toList),
          (ImageSizeMetadataKey, Value.str "4K".toList)])
        (Json.obj []) "generationConfig.imageConfig".toList
      = Json.obj [("generationConfig".toList, Json.obj [("imageConfig".toList,
          Json.obj [("aspectRatio".toList, Json.str "16:9".toList),
            ("imageSize".toList, Json.str "4K".toList)])])] := by
  have hta := trimmedField_of_string ha hab
  have htz := trimmedField_of_string hz hzb
  have hgen : ∀ {D : Type} (setBytes : D → Str → Str → D × Bool) (d : D),
      applyImageConfig setBytes m d basePath
        = (setBytes (setBytes d (basePath ++ ".aspectRatio".toList) (stringsTrimSpace a)).1
            (basePath ++ ".imageSize".toList) (stringsTrimSpace z)).1 := by
    intro D setBytes d
    rw [applyImageConfig_eq, hta, htz]
    simp [writeFields, hab, hzb]
  have hne : ("aspectRatio".toList : Str) ≠ "imageSize".toList := by decide
  refine ⟨fun setBytes rawJSON => hgen setBytes rawJSON, hgen jsonSetBytes doc, ?_, ?_, ?_, rfl⟩
  · rw [hgen jsonSetBytes doc]
    simp only [jsonSetBytes, aspectRatio_path, imageSize_path]
    rw [getPath_setPath_sibling _ _ _ _ _ hne]
    exact getPath_setPath_same _ _ _
  · rw [hgen jsonSetBytes doc]
    simp only [jsonSetBytes]
    exact getPath_setPath_same _ _ _
  · intro k hk
    rw [hgen jsonSetBytes doc]
    simp only [jsonSetBytes, aspectRatio_path, imageSize_path]
    cases hs : stringsSplit '.' basePath with
    | nil => exact absurd hs (stringsSplit_ne_nil _ _)
    | cons k0 t =>
      rw [hs] at hk
      have hk0 : k ≠ k0 := by
        intro e
        apply hk
        rw [e]
        rfl
      rw [List.cons_append, List.cons_append, fields_setPath_other _ _ _ _ _ hk0,
        fields_setPath_other _ _ _ _ _ hk0]

/-- C11 (witness): metadata {16:9, 4K}, document {} and base path
"generationConfig.imageConfig". -/
theorem C11_both_fields_written_witness :
    getPath (stringsSplit '.' "generationConfig.imageConfig.imageSize".toList)
        (applyImageConfig jsonSetBytes
          (some [(ImageAspectRatioMetadataKey, Value.str "16:9".toList),
            (ImageSizeMetadataKey, Value.str "4K".toList)])
          (Json.obj []) "generationConfig.imageConfig".toList)
      = some (Json.str "4K".toList) :=
  (C11_both_fields_written
    (some [(ImageAspectRatioMetadataKey, Value.str "16:9".toList),
      (ImageSizeMetadataKey, Value.str "4K".toList)])
    (Json.obj []) "generationConfig.imageConfig".toList "16:9".toList "4K".toList
    (by decide) (by decide) (by decide) (by decide)).2.2.2.1

/-! ## C17: lower-casing the suffix -/

theorem toLowerRune_idem (c : Char) : toLowerRune (toLowerRune c) = toLowerRune c := by
  by_cases h1 : 65 ≤ c.toNat ∧ c.toNat ≤ 90
  · have e : toLowerRune c = Char.ofNat (c.toNat + 32) := by
      unfold toLowerRune
      rw [if_pos h1]
    rw [e]
    obtain ⟨n, hn⟩ : ∃ n, c.toNat = n := ⟨_, rfl⟩
    rw [hn] at h1 ⊢
    obtain ⟨l, u⟩ := h1
    interval_cases n <;> decide
  · by_cases h2 : c.toNat = 0x212A
    · have e : toLowerRune c = 'k' := by
        unfold toLowerRune
        rw [if_neg h1, if_pos h2]
      rw [e]
      decide
    · by_cases h3 : c.toNat = 0x130
      · have e : toLowerRune c = 'i' := by
          unfold toLowerRune
          rw [if_neg h1, if_neg h2, if_pos h3]
        rw [e]
        decide
      · have e : toLowerRune c = c := by
          unfold toLowerRune
          rw [if_neg h1, if_neg h2, if_neg h3]
        rw [e, e]

theorem stringsToLower_idem (s : Str) : stringsToLower (stringsToLower s) = stringsToLower s := by
  simp only [stringsToLower, List.map_map]
  apply List.map_congr_left
  intro c _
  exact toLowerRune_idem c

theorem toLowerRune_eq_dash_iff (c : Char) : toLowerRune c = '-' ↔ c = '-' :=
  ⟨toLowerRune_dash, fun h => by rw [h]; decide⟩

theorem toLowerRune_eq_newline_iff (c : Char) : toLowerRune c = '\n' ↔ c = '\n' :=
  ⟨fun h => toLowerRune_eq_stable h (by decide), fun h => by rw [h]; decide⟩

theorem newline_mem_toLower (s : Str) : '\n' ∈ stringsToLower s ↔ '\n' ∈ s := by
  simp only [stringsToLower, List.mem_map]
  constructor
  · rintro ⟨c, hc, hcd⟩
    exact (toLowerRune_eq_newline_iff c).mp hcd ▸ hc
  · intro h
    exact ⟨'\n', h, by decide⟩

theorem stringsToLower_eq_nil_iff (s : Str) : stringsToLower s = [] ↔ s = [] := by
  simp [stringsToLower]

theorem stringsSplit_toLower (s : Str) :
    stringsSplit '-' (stringsToLower s) = (stringsSplit '-' s).map stringsToLower := by
  induction s with
  | nil => rfl
  | cons c s ih =>
    by_cases hc : c = '-'
    · subst hc
      have e : stringsToLower ('-' :: s) = '-' :: stringsToLower s := by
        simp only [stringsToLower, List.map_cons]
        congr 1
      rw [e]
      simp only [stringsSplit, if_true, List.map_cons, ih]
      rfl
    · have hc2 : toLowerRune c ≠ '-' := fun h => hc ((toLowerRune_eq_dash_iff c).mp h)
      have e : stringsToLower (c :: s) = toLowerRune c :: stringsToLower s := rfl
      cases hs : stringsSplit '-' s with
      | nil => exact absurd hs (stringsSplit_ne_nil _ _)
      | cons p ps =>
        have h1 : stringsSplit '-' (stringsToLower s)
            = stringsToLower p :: ps.map stringsToLower := by
          rw [ih, hs]
          rfl
        rw [e, stringsSplit_cons_ne '-' _ _ _ _ hc2 h1, stringsSplit_cons_ne '-' c _ _ _ hc hs]
        rfl

theorem afterDash_append (a b : Str) (ha : '-' ∉ a) : afterDash (a ++ '-' :: b) = b := by
  induction a with
  | nil => simp [afterDash]
  | cons c a ih =>
    have hc : c ≠ '-' := fun e => ha (e ▸ List.mem_cons_self _ _)
    have ha' : '-' ∉ a := fun e => ha (List.mem_cons_of_mem _ e)
    have := ih ha'
    simp only [afterDash] at this
    simp [afterDash, hc, this]

theorem ratioKeys_after_dash :
    ∀ k ∈ aspectRatioMap.map Prod.fst, '-' ∈ k →
      (∀ d ∈ afterDash k, stableChar d = true) ∧
        stringsToLower (afterDash k) = afterDash k := by
  decide

theorem pair_lookup_lower (p q : Str) (hp : '-' ∉ p) :
    mapGet aspectRatioMap (stringsToLower p ++ ['-'] ++ stringsToLower q)
      = mapGet aspectRatioMap (stringsToLower p ++ ['-'] ++ q) := by
  have hlp := dash_not_mem_toLower hp
  by_cases hq : stringsToLower q = q
  · rw [hq]
  · have e1 : ∀ t, stringsToLower p ++ ['-'] ++ t = stringsToLower p ++ '-' :: t := by
      intro t; simp
    have n1 : mapGet aspectRatioMap (stringsToLower p ++ ['-'] ++ stringsToLower q) = none := by
      rw [mapGet_eq_none_iff, e1]
      intro hk
      have hf := ratioKeys_after_dash _ hk (by simp)
      rw [afterDash_append _ _ hlp] at hf
      exact hq (stringsToLower_eq_stable q _ rfl hf.1).symm
    have n2 : mapGet aspectRatioMap (stringsToLower p ++ ['-'] ++ q) = none := by
      rw [mapGet_eq_none_iff, e1]
      intro hk
      have hf := ratioKeys_after_dash _ hk (by simp)
      rw [afterDash_append _ _ hlp] at hf
      exact hq hf.2
    rw [n1, n2]

theorem scanParts_map_lower (parts : List Str) (st : Scan) (hd : ∀ f ∈ parts, '-' ∉ f) :
    scanParts (parts.map stringsToLower) st = scanParts parts st := by
  induction parts, st using scanParts.induct with
  | case1 st => rfl
  | case2 p st size hs =>
    simp only [List.map_cons, List.map_nil, scanParts, stringsToLower_idem, hs]
  | case3 p st hs =>
    simp only [List.map_cons, List.map_nil, scanParts, stringsToLower_idem, hs]
  | case4 p q rest st size hs ih =>
    have ih' := ih (fun f hf => hd f (List.mem_cons_of_mem _ hf))
    simp only [List.map_cons] at ih' ⊢
    simp only [scanParts, stringsToLower_idem, hs, ih']
  | case5 p q rest st hs r hr ih =>
    have hp : '-' ∉ p := hd p (List.mem_cons_self _ _)
    have ih' := ih (fun f hf => hd f (List.mem_cons_of_mem _ (List.mem_cons_of_mem _ hf)))
    simp only [List.map_cons] at ih' ⊢
    simp only [scanParts, stringsToLower_idem, hs, pair_lookup_lower p q hp, hr, ih']
  | case6 p q rest st hs hr ih =>
    have hp : '-' ∉ p := hd p (List.mem_cons_self _ _)
    have ih' := ih (fun f hf => hd f (List.mem_cons_of_mem _ hf))
    simp only [List.map_cons] at ih' ⊢
    simp only [scanParts, stringsToLower_idem, hs, pair_lookup_lower p q hp, hr, ih']

theorem scanSuffix_toLower (s : Str) : scanSuffix (stringsToLower s) = scanSuffix s := by
  unfold scanSuffix
  rw [stringsSplit_toLower]
  exact scanParts_map_lower _ _ (sep_not_mem_stringsSplit '-' s)

theorem scanParts_preview_skip (parts : List Str) (st : Scan) :
    scanParts ("preview".toList :: parts) st = scanParts parts st := by
  have hs : mapGet imageSizeMap (stringsToLower "preview".toList) = none := by decide
  have hx : xStep (stringsToLower "preview".toList) st = st :=
    xStep_of_not_ratio _ _ (by decide)
  cases parts with
  | nil => simp only [scanParts, hs, hx]
  | cons q rest =>
    have hr : mapGet aspectRatioMap (stringsToLower "preview".toList ++ ['-'] ++ q) = none := by
      rw [pair_lookup_none_iff "preview".toList q (by decide)]
      intro hk
      have hall : ∀ k ∈ dashRatios, beforeDash k ≠ "preview".toList := by decide
      exact hall _ hk (beforeDash_append _ _ (by decide))
    simp only [scanParts, hs, hr, hx]

theorem scanSuffix_preview (rest : Str) :
    scanSuffix ("preview-".toList ++ rest) = scanSuffix rest := by
  have e : "preview-".toList ++ rest = "preview".toList ++ '-' :: rest := by
    have e1 : "preview-".toList = "preview".toList ++ ['-'] := by decide
    rw [e1]
    simp
  unfold scanSuffix
  rw [e, stringsSplit_append '-' _ _ (by decide), scanParts_preview_skip]

theorem findStringSubmatch_none_of_bad_suffix (sfx : Str) (h : sfx = [] ∨ '\n' ∈ sfx) :
    findStringSubmatch (bareBase ++ '-' :: sfx) = none := by
  cases hf : findStringSubmatch (bareBase ++ '-' :: sfx) with
  | none => rfl
  | some r =>
    exfalso
    obtain ⟨base, sfx2⟩ := r
    obtain ⟨hb, hs, hne, hnl⟩ := findStringSubmatch_some hf
    rcases hb with rfl | rfl
    · rw [previewBase_eq, List.append_assoc] at hs
      have h2 := List.append_cancel_left hs
      have e3 : "-preview".toList = '-' :: "preview".toList := by decide
      rw [e3] at h2
      have h3 : sfx = "preview".toList ++ '-' :: sfx2 := (List.cons.inj h2).2
      rcases h with h | h
      · rw [h] at h3
        cases h3
      · rw [h3] at h
        rcases List.mem_append.mp h with h4 | h4
        · revert h4; decide
        · rcases List.mem_cons.mp h4 with h5 | h5
          · revert h5; decide
          · exact hnl h5
    · have h2 := List.append_cancel_left hs
      have h3 : sfx = sfx2 := (List.cons.inj h2).2
      rcases h with h | h
      · exact hne (h3 ▸ h)
      · exact hnl (h3 ▸ h)

/-- For a non-empty suffix with no line break, other than "preview", the
pattern matches and the scanned suffix gives the same scan as the whole one. -/
theorem findStringSubmatch_scan (sfx : Str) (hne : sfx ≠ []) (hnl : '\n' ∉ sfx) :
    ∃ base sfx2, findStringSubmatch (bareBase ++ '-' :: sfx) = some (base, sfx2) ∧
      scanSuffix sfx2 = scanSuffix sfx := by
  by_cases hpp : "preview-".toList.isPrefixOf sfx = true
  · rw [List.isPrefixOf_iff_prefix] at hpp
    obtain ⟨rest, rfl⟩ := hpp
    by_cases hrest : rest = []
    · subst hrest
      exact ⟨bareBase, "preview-".toList ++ [], by decide, rfl⟩
    · have hnl2 : '\n' ∉ rest := fun h => hnl (List.mem_append_right _ h)
      have em : bareBase ++ '-' :: ("preview-".toList ++ rest) = previewBase ++ '-' :: rest := by
        have e1 : bareBase ++ '-' :: "preview-".toList = previewBase ++ ['-'] := by decide
        have e2 : bareBase ++ '-' :: ("preview-".toList ++ rest)
            = (bareBase ++ '-' :: "preview-".toList) ++ rest := by simp
        rw [e2, e1]
        simp
      refine ⟨previewBase, rest, ?_, (scanSuffix_preview rest).symm⟩
      rw [em]
      simp only [findStringSubmatch, matchWithBase_append previewBase rest hrest hnl2]
  · have hpp2 : "preview-".toList.isPrefixOf sfx = false := by
      cases hq : "preview-".toList.isPrefixOf sfx with
      | true => exact absurd hq hpp
      | false => rfl
    exact ⟨bareBase, sfx, findStringSubmatch_bare sfx hnl hne hpp2, rfl⟩

theorem fields_of_match {m base sfx : Str}
    (hb : m ≠ bareBase) (hp : m ≠ previewBase)
    (hf : findStringSubmatch m = some (base, sfx)) :
    mapGet (mapEntries (NormalizeImageModel m).2) ImageAspectRatioMetadataKey
      = optField (scanSuffix sfx).aspectRatio ∧
    mapGet (mapEntries (NormalizeImageModel m).2) ImageSizeMetadataKey
      = optField (scanSuffix sfx).imageSize := by
  rw [NormalizeImageModel_of_match hb hp hf]
  by_cases hst : (scanSuffix sfx).aspectRatio = [] ∧ (scanSuffix sfx).imageSize = []
  · rw [if_pos hst, hst.1, hst.2]
    exact ⟨rfl, rfl⟩
  · rw [if_neg hst]
    exact buildMetadata_get m _ _

/-- The two fields extracted from "gemini-3-pro-image-<suffix>": nothing for
an empty suffix or one with a line break, the scan of the suffix otherwise. -/
theorem fields_of_suffix (sfx : Str) :
    mapGet (mapEntries (NormalizeImageModel (bareBase ++ '-' :: sfx)).2)
        ImageAspectRatioMetadataKey
      = (if sfx = [] ∨ '\n' ∈ sfx then none else optField (scanSuffix sfx).aspectRatio) ∧
    mapGet (mapEntries (NormalizeImageModel (bareBase ++ '-' :: sfx)).2)
        ImageSizeMetadataKey
      = (if sfx = [] ∨ '\n' ∈ sfx then none else optField (scanSuffix sfx).imageSize) := by
  by_cases hbad : sfx = [] ∨ '\n' ∈ sfx
  · rw [if_pos hbad, if_pos hbad,
      NormalizeImageModel_of_no_match (findStringSubmatch_none_of_bad_suffix sfx hbad)]
    exact ⟨rfl, rfl⟩
  · rw [if_neg hbad, if_neg hbad]
    have hne : sfx ≠ [] := fun h => hbad (Or.inl h)
    have hnl : '\n' ∉ sfx := fun h => hbad (Or.inr h)
    by_cases hprev : sfx = "preview".toList
    · subst hprev
      decide
    · have hb : bareBase ++ '-' :: sfx ≠ bareBase := by
        intro h
        have := congrArg List.length h
        simp at this
      have hp : bareBase ++ '-' :: sfx ≠ previewBase := by
        intro h
        rw [previewBase_eq] at h
        have h2 := List.append_cancel_left h
        have e : "-preview".toList = '-' :: "preview".toList := by decide
        rw [e] at h2
        exact hprev (List.cons.inj h2).2
      obtain ⟨base, sfx2, hf, hscan⟩ := findStringSubmatch_scan sfx hne hnl
      rw [← hscan]
      exact fields_of_match hb hp hf

/-! ## C17 -/

/-- C17: suffix tokens are matched case-insensitively.  For every ASCII
suffix s, "gemini-3-pro-image-" + s and "gemini-3-pro-image-" + lowercase(s)
give the same image_aspect_ratio and the same image_size, both absent or both
equal; "4K" yields image_size "4K" and "16X9" yields image_aspect_ratio
"16:9". -/
theorem C17_case_insensitive (s : Str) (_hascii : ∀ c ∈ s, c.toNat < 128) :
    mapGet (mapEntries (NormalizeImageModel ("gemini-3-pro-image-".toList ++ s)).2)
        ImageAspectRatioMetadataKey
      = mapGet (mapEntries (NormalizeImageModel
          ("gemini-3-pro-image-".toList ++ stringsToLower s)).2) ImageAspectRatioMetadataKey ∧
    mapGet (mapEntries (NormalizeImageModel ("gemini-3-pro-image-".toList ++ s)).2)
        ImageSizeMetadataKey
      = mapGet (mapEntries (NormalizeImageModel
          ("gemini-3-pro-image-".toList ++ stringsToLower s)).2) ImageSizeMetadataKey ∧
    mapGet (mapEntries (NormalizeImageModel "gemini-3-pro-image-4K".toList).2)
        ImageSizeMetadataKey = some (Value.str "4K".toList) ∧
    mapGet (mapEntries (NormalizeImageModel "gemini-3-pro-image-16X9".toList).2)
        ImageAspectRatioMetadataKey = some (Value.str "16:9".toList) := by
  have e : ∀ t : Str, "gemini-3-pro-image-".toList ++ t = bareBase ++ '-' :: t := by
    intro t
    rw [bareDash_eq]
    simp
  have hc : (stringsToLower s = [] ∨ '\n' ∈ stringsToLower s) ↔ (s = [] ∨ '\n' ∈ s) := by
    rw [stringsToLower_eq_nil_iff, newline_mem_toLower]
  have h1 := fields_of_suffix s
  have h2 := fields_of_suffix (stringsToLower s)
  rw [scanSuffix_toLower] at h2
  simp only [hc] at h2
  rw [e s, e (stringsToLower s), h1.1, h1.2, h2.1, h2.2]
  exact ⟨rfl, rfl, by decide, by decide⟩

/-- C17 (witness): the suffix "4K-16X9" and its lower case "4k-16x9". -/
theorem C17_case_insensitive_witness :
    mapGet (mapEntries (NormalizeImageModel
        ("gemini-3-pro-image-".toList ++ "4K-16X9".toList)).2) ImageAspectRatioMetadataKey
      = mapGet (mapEntries (NormalizeImageModel
          ("gemini-3-pro-image-".toList ++ "4k-16x9".toList)).2) ImageAspectRatioMetadataKey :=
  (C17_case_insensitive "4K-16X9".toList (by decide)).1

end Util
